import Mathlib

/-!
# Rocket: replay memory and rocket simulator

A shallow embedding of `ReplayMemory.cpp` and `rocket.cpp`.

Conventions of the embedding

* `unsigned long` values are natural numbers below `2^64`; arithmetic on them is
  written with an explicit `% 2^64`.
* `int` values are integers; the conversion of an `unsigned long` to `int` is
  `toInt32`.
* An array is a list.  An access outside the bounds of an array has no defined
  result: the operation that performs it returns `none`.
* The random generator is not part of the state: an operation that draws random
  numbers takes the sequence of its draws as an argument (`keys i` is the value
  of the `i`-th call of `rni(rng)` made by the operation).
* A stored record (`py::array_t<double>`) is the list of its elements, over an
  arbitrary element type `α`.
-/

namespace Repo

/-! ## Machine integers -/

/-- The number of values of an `unsigned long`. -/
def U64 : Nat := 2 ^ 64

/-- Difference `a - b` of two `unsigned long` values. -/
def usub (a b : Nat) : Nat := (a + U64 - b % U64) % U64

/-- Conversion of an `unsigned long` to `int` (two's complement, 32 bits). -/
def toInt32 (v : Nat) : Int :=
  if v % 2 ^ 32 < 2 ^ 31 then ((v % 2 ^ 32 : Nat) : Int) else ((v % 2 ^ 32 : Nat) : Int) - 2 ^ 32

/-- Conversion of an `unsigned long` to `long long int` (two's complement, 64 bits). -/
def toInt64 (v : Nat) : Int :=
  if v % 2 ^ 64 < 2 ^ 63 then ((v % 2 ^ 64 : Nat) : Int) else ((v % 2 ^ 64 : Nat) : Int) - 2 ^ 64

/-- Conversion of an `int` to `unsigned long`. -/
def ofInt (z : Int) : Nat := (z % 2 ^ 64).toNat

/-! ## ReplayMemory: data model -/

/-- The fields of `class ReplayMemory`.  `shuffle_list = none` is the null pointer. -/
structure ReplayMemory (α : Type) where
  data : List (List α)
  shuffle_list : Option (List Nat)
  length : Nat
  width : Nat
  cont : Nat
  dimension : Nat
  position : Nat

namespace ReplayMemory

variable {α : Type}

/-- The constructor `ReplayMemory(length, width)`: `length` default-constructed (empty)
arrays, `cont = dimension = position = 0`.  The pointer `shuffle_list` has no default member
initialiser and the constructor does not write it: its value after construction is the
value the storage of the object held before, the argument `pointer` (`none` when that value
is the null pointer, the value `batch` and the destructor test for). -/
def init (length width : Nat) (pointer : Option (List Nat)) : ReplayMemory α :=
  { data := List.replicate length [],
    shuffle_list := pointer,
    length := length,
    width := width,
    cont := 0,
    dimension := 0,
    position := 0 }

/-- The method `append`: `data[cont]=arr`, then the two conditional updates. -/
def append (m : ReplayMemory α) (arr : List α) : Option (ReplayMemory α) :=
  if m.cont < m.data.length then
    some { m with
      data := m.data.set m.cont arr,
      cont := if m.cont = usub m.length 1 then 0 else (m.cont + 1) % U64,
      dimension := if m.dimension = m.length then m.dimension else (m.dimension + 1) % U64 }
  else none

/-- The method `len`. -/
def len (m : ReplayMemory α) : Nat := m.dimension

/-- A sequence of `append` calls, in order. -/
def appendAll : ReplayMemory α → List (List α) → Option (ReplayMemory α)
  | m, [] => some m
  | m, r :: rs => (append m r).bind (fun m1 => appendAll m1 rs)

/-! ## ReplayMemory: shuffle -/

/-- The effect of `std::swap(xs[i], xs[j])` on an array of `unsigned long`. -/
def swapAt (xs : List Nat) (i j : Nat) : List Nat :=
  (xs.set i (xs.getD j 0)).set j (xs.getD i 0)

/-- The inner loop of `shuffle`, `for(j=...;j>=0;j--)`.  The last argument is `j+1`, the
number of values the loop variable `j` can still take; `rn` is `random_numbers` and `sl`
is `shuffle_list`. -/
def shuffle_inner (rn sl : List Nat) (contador : Nat) : Nat → List Nat × List Nat
  | 0 => (rn, sl)
  | j + 1 =>
    if rn.getD contador 0 > rn.getD j 0 then
      shuffle_inner (swapAt rn j contador) (swapAt sl j contador) j j
    else (rn, sl)

/-- The outer loop of `shuffle`, `for(i=1;i<dimension;i++)`.  The first `Nat` argument is the
number of iterations left, the second is `i`.  Cell `i` of both arrays is written at
iteration `i` before any cell at or above `i` is read, so the arrays are represented by the
lists of their first `i` cells. -/
def shuffle_loop (keys : Nat → Nat) : Nat → Nat → List Nat × List Nat → List Nat × List Nat
  | 0, _, st => st
  | k + 1, i, st => shuffle_loop keys k (i + 1) (shuffle_inner (st.1 ++ [keys i]) (st.2 ++ [i]) i i)

/-- The array `shuffle_list` that `shuffle` builds for a buffer of `dimension` records.  The
loop bound is `(long long int)dimension`. -/
def shuffle_keys (keys : Nat → Nat) (dimension : Nat) : List Nat :=
  (shuffle_loop keys (toInt64 dimension - 1).toNat 1 ([keys 0], [0])).2

/-- The method `shuffle`.  With `dimension = 0` the two stores into cell 0 fall outside the
arrays.  `position` is not assigned. -/
def shuffle (m : ReplayMemory α) (keys : Nat → Nat) : Option (ReplayMemory α) :=
  if m.dimension = 0 then none
  else some { m with shuffle_list := some (shuffle_keys keys m.dimension) }

/-! ## ReplayMemory: batch -/

/-- The local `int rest` of `batch`. -/
def batch_rest (position bsize dimension : Nat) : Int :=
  toInt32 (if (position + bsize) % U64 ≤ usub dimension 1 then bsize else usub dimension position)

/-- The values `xs[i]` for `i` in `idx`, when every `i` is inside `xs`. -/
def readAt {β : Type} (xs : List β) (d : β) (idx : List Nat) : Option (List β) :=
  if ∀ i ∈ idx, i < xs.length then some (idx.map (fun i => xs.getD i d)) else none

/-- The rows `memcpy` copies: the first `width` elements of `data[s]` for each slot `s`,
when `s` is inside `data` and the record has at least `width` elements. -/
def copyRows (data : List (List α)) (width : Nat) (slots : List Nat) : Option (List (List α)) :=
  if ∀ s ∈ slots, s < data.length ∧ width ≤ (data.getD s []).length then
    some (slots.map (fun s => (data.getD s []).take width))
  else none

/-- The first statement of `batch`: `if(shuffle_list==nullptr) shuffle();`. -/
def batch_prepare (m : ReplayMemory α) (keys : Nat → Nat) : Option (ReplayMemory α) :=
  match m.shuffle_list with
  | none => shuffle m keys
  | some _ => some m

/-- The value of `position` after `position+=rest` (before the test of a completed pass). -/
def batch_position (m1 : ReplayMemory α) (bsize : Nat) : Nat :=
  (m1.position + ofInt (batch_rest m1.position bsize m1.dimension)) % U64

/-- The slot indices `shuffle_list[i]` read by the copy loop of `batch`,
`for(i=position-rest;i<position;i++)`, in the order of the loop. -/
def batch_slots (m : ReplayMemory α) (bsize : Nat) (keys : Nat → Nat) : Option (List Nat) :=
  (batch_prepare m keys).bind fun m1 =>
  m1.shuffle_list.bind fun sl =>
  let rest := batch_rest m1.position bsize m1.dimension
  if rest < 0 then none
  else
    let first := usub (batch_position m1 bsize) (ofInt rest)
    readAt sl 0 (List.range' first (batch_position m1 bsize - first))

/-- The method `batch`: the returned block (its rows, in order) and the new state.  A negative
`rest` gives no block: the request `new double[rest*width]` and the shape `(rest, width)`
cannot be met. -/
def batch (m : ReplayMemory α) (bsize : Nat) (keys : Nat → Nat) :
    Option (List (List α) × ReplayMemory α) :=
  (batch_prepare m keys).bind fun m1 =>
  (batch_slots m bsize keys).bind fun slots =>
  (copyRows m1.data m1.width slots).bind fun rows =>
  some (rows,
    if batch_position m1 bsize = m1.dimension then
      { m1 with position := 0, shuffle_list := none }
    else { m1 with position := batch_position m1 bsize })

/-! ## ReplayMemory: sequences of calls -/

/-- A call of one of the four methods.  `shuffle` and `batch` carry the draws of the random
generator made during the call. -/
inductive Op (α : Type) where
  | append (arr : List α)
  | len
  | shuffle (keys : Nat → Nat)
  | batch (bsize : Nat) (keys : Nat → Nat)

/-- The state after a call. -/
def step (m : ReplayMemory α) : Op α → Option (ReplayMemory α)
  | Op.append arr => append m arr
  | Op.len => some m
  | Op.shuffle keys => shuffle m keys
  | Op.batch bsize keys => (batch m bsize keys).map Prod.snd

/-- The arguments a call can receive: the argument of `batch` is an `unsigned long`. -/
def Op.valid : Op α → Prop
  | Op.batch bsize _ => bsize < U64
  | _ => True

/-- The states reachable by calls of the four methods from a `ReplayMemory(length, width)`
whose construction left the null pointer in `shuffle_list`.  A call without a defined result
(`none`) has no successor state: the relation follows the calls whose behaviour is defined,
and a call of `shuffle` or `batch` on an empty buffer is not one of them. -/
inductive Reachable (length width : Nat) : ReplayMemory α → Prop where
  | init : Reachable length width (init length width none)
  | call {m m1 : ReplayMemory α} (op : Op α) :
      Reachable length width m → op.valid → step m op = some m1 → Reachable length width m1

/-- A run of consecutive `batch` calls (argument and draws of each): the blocks returned, in
call order, and the final state. -/
def batchAll : ReplayMemory α → List (Nat × (Nat → Nat)) →
    Option (List (List (List α)) × ReplayMemory α)
  | m, [] => some ([], m)
  | m, c :: cs =>
    (batch m c.1 c.2).bind fun r =>
    (batchAll r.2 cs).bind fun rs => some (r.1 :: rs.1, rs.2)

/-- The slot indices read by a run of consecutive `batch` calls, concatenated in call order. -/
def batchAll_slots : ReplayMemory α → List (Nat × (Nat → Nat)) → Option (List Nat)
  | _, [] => some []
  | m, c :: cs =>
    (batch m c.1 c.2).bind fun r =>
    (batch_slots m c.1 c.2).bind fun s =>
    (batchAll_slots r.2 cs).bind fun ss => some (s ++ ss)

/-- The caller contract on the stored records: the `dimension` filled slots are inside
`data`, each holds a record of exactly `width` elements, and `dimension` is in the range
in which `(long long int)dimension` equals `dimension`. -/
structure WellFormed (m : ReplayMemory α) : Prop where
  dimension_le : m.dimension ≤ m.data.length
  dimension_lt : m.dimension < 2 ^ 63
  rows : ∀ s, s < m.dimension → (m.data.getD s []).length = m.width

/-- The state of the batch cursor between two calls: no permutation and `position = 0`, or
a permutation of `[0, dimension)` and a pass in progress. -/
def PassState (m : ReplayMemory α) : Prop :=
  (m.shuffle_list = none ∧ m.position = 0) ∨
  (∃ sl, m.shuffle_list = some sl ∧ List.Perm sl (List.range m.dimension) ∧
    m.position < m.dimension)

/-- The invariant behind the bounds on the cursors: the cursors are in range, a
permutation that is present has at most `dimension` entries, and `position = 0` when no
permutation is present. -/
def CursorInv (L : Nat) (m : ReplayMemory α) : Prop :=
  m.length = L ∧ m.data.length = L ∧ m.dimension ≤ L ∧ m.cont < L ∧
    m.position ≤ m.dimension ∧ (∀ sl, m.shuffle_list = some sl → sl.length ≤ m.dimension) ∧
    (m.shuffle_list = none → m.position = 0)

/-! ## ReplayMemory: counting key assignments -/

/-- The draws of the generator during `shuffle` when index `i` receives the key `ks i`. -/
def drawsOf {K n : Nat} (ks : Fin n → Fin K) : Nat → Nat :=
  fun i => if h : i < n then ((ks ⟨i, h⟩ : Fin K) : Nat) else 0

/-- The number of assignments of `n` keys from `{0, ..., K-1}` for which `shuffle` builds
the order `σ`. -/
def shuffle_count (K n : Nat) (σ : List Nat) : Nat :=
  ((Finset.univ : Finset (Fin n → Fin K)).filter
    (fun ks => shuffle_keys (drawsOf ks) n = σ)).card

/-- The number of assignments of `n` pairwise distinct keys from `{0, ..., K-1}` for which
`shuffle` builds the order `σ`. -/
def shuffle_count_distinct (K n : Nat) (σ : List Nat) : Nat :=
  ((Finset.univ : Finset (Fin n → Fin K)).filter
    (fun ks => Function.Injective ks ∧ shuffle_keys (drawsOf ks) n = σ)).card

/-- The order in which `shuffle` lists two indices `a` before `b`: the larger key first,
and for equal keys the smaller index first. -/
def keyOrder (keys : Nat → Nat) (a b : Nat) : Prop :=
  keys b < keys a ∨ (keys b = keys a ∧ a ≤ b)

/-! ## ReplayMemory: sample states -/

/-- Draws of the generator that are all equal: `shuffle` then keeps the order `0, 1, 2, ...`. -/
def sample_keys : Nat → Nat := fun _ => 0

/-- `ReplayMemory(3, 1)` after `append` of `[10]`, `[11]`, `[12]`. -/
def sample_full : ReplayMemory Nat :=
  { data := [[10], [11], [12]], shuffle_list := none, length := 3, width := 1,
    cont := 0, dimension := 3, position := 0 }

/-- The state `sample_full` after `batch(1)` with the draws `sample_keys`: a pass in progress. -/
def sample_pass : ReplayMemory Nat :=
  { data := [[10], [11], [12]], shuffle_list := some [0, 1, 2], length := 3, width := 1,
    cont := 0, dimension := 3, position := 1 }

/-- `ReplayMemory(3, 1)` after `append` of `[10]`, `[11]`. -/
def sample_two : ReplayMemory Nat :=
  { data := [[10], [11], []], shuffle_list := none, length := 3, width := 1,
    cont := 2, dimension := 2, position := 0 }

/-- The state `sample_two` after `batch(1)` with the draws `sample_keys`: a pass in progress
on a buffer that is not full. -/
def sample_two_pass : ReplayMemory Nat :=
  { data := [[10], [11], []], shuffle_list := some [0, 1], length := 3, width := 1,
    cont := 2, dimension := 2, position := 1 }

/-- The state `sample_pass` after `shuffle()` with the draws `0, 1, 2`. -/
def sample_reshuffled : ReplayMemory Nat :=
  { data := [[10], [11], [12]], shuffle_list := some [2, 1, 0], length := 3, width := 1,
    cont := 0, dimension := 3, position := 1 }

/-- The state `sample_two_pass` after `append` of `[12]`. -/
def sample_grown : ReplayMemory Nat :=
  { data := [[10], [11], [12]], shuffle_list := some [0, 1], length := 3, width := 1,
    cont := 0, dimension := 3, position := 1 }

/-- A buffer of capacity 10 that holds 10 records of width 1 and has no permutation. -/
def sample_ten : ReplayMemory Nat :=
  { data := [[0], [1], [2], [3], [4], [5], [6], [7], [8], [9]], shuffle_list := none,
    length := 10, width := 1, cont := 0, dimension := 10, position := 0 }

end ReplayMemory

/-! ## Rocket: data model

The simulator computes with `double`.  The embedding is over an arbitrary linearly ordered
field `F` (exact arithmetic), with the library functions `sin`, `cos` and the value of
`acos(-1)` supplied by a `Trig F`. -/

/-- The library functions and the constant `acos(-1)` used by the simulator. -/
structure Trig (F : Type) where
  sin : F → F
  cos : F → F
  pi : F

/-- The fields of `class Rocket` that change (`flag` is the within-bounds flag). -/
structure Rocket (F : Type) where
  x : F
  y : F
  phi : F
  u : F
  v : F
  w : F
  t : F
  theta : F
  ignition : Int
  rotation : Int
  flag : Bool

/-- The six derivatives returned by `differential_ecuations_step`. -/
structure Deriv (F : Type) where
  d0 : F
  d1 : F
  d2 : F
  d3 : F
  d4 : F
  d5 : F

namespace Rocket

variable {F : Type} [LinearOrderedField F]

/-- `#define g 9.81`. -/
def g : F := 981 / 100
/-- `#define theta_max 0.523598776`. -/
def theta_max : F := 523598776 / 1000000000
/-- `#define v_0_x 2.0`. -/
def v_0_x : F := 2
/-- `#define v_0_y 2.0`. -/
def v_0_y : F := 2
/-- `#define phi_0 acos(-1)/36.0`. -/
def phi_0 (T : Trig F) : F := T.pi / 36
/-- `#define x_range 1.5`. -/
def x_range : F := 3 / 2
/-- `#define y_range 1.5`. -/
def y_range : F := 3 / 2
/-- `#define phi_max acos(-1)/3.0`. -/
def phi_max (T : Trig F) : F := T.pi / 3
/-- `#define area 10`. -/
def area : F := 10
/-- `#define FINISH_PENALIZATION -700.0`. -/
def FINISH_PENALIZATION : F := -700
/-- `#define steps_actualization 50`. -/
def steps_actualization : Nat := 50
/-- `const double a=1.0`. -/
def a : F := 1
/-- `const double b=1.0`. -/
def b : F := 1
/-- `const double m=10.0`. -/
def m : F := 10
/-- `const double F_e=130.0`. -/
def F_e : F := 130
/-- `const double w_theta=2.0`. -/
def w_theta : F := 2
/-- `const double h=0.001`. -/
def h : F := 1 / 1000

/-- The state written by the member initialisers of the constructor `Rocket()`, before its
call of `reset()`. -/
def zero : Rocket F :=
  { x := 0, y := 0, phi := 0, u := 0, v := 0, w := 0, t := 0, theta := 0,
    ignition := 0, rotation := 0, flag := true }

/-- The method `reset`; `r0 .. r5` are the six draws `rn(rng)`, in the order of the calls.
The result is the new state and the returned array of 9 elements. -/
def reset (T : Trig F) (s : Rocket F) (r0 r1 r2 r3 r4 r5 : F) : Rocket F × List F :=
  let s1 : Rocket F :=
    { s with
      x := r0 * x_range - x_range / 2,
      y := r1 * y_range - y_range / 2,
      phi := r2 * phi_0 T - phi_0 T / 2,
      u := 2 * v_0_x * r3 - v_0_x,
      v := 2 * v_0_y * r4 - v_0_y,
      theta := (theta_max * r5 - theta_max / 2) * (1 / 4),
      w := 0,
      t := 0,
      flag := true }
  (s1, [s1.x, s1.y, s1.phi, s1.u, s1.v, s1.w, s1.theta, (s1.ignition : F), (s1.rotation : F)])

/-- The value of `pow(-1,n)` for an `int` exponent `n`. -/
def powNegOne (n : Int) : Int := if n % 2 = 0 then 1 else -1

/-- The expression `static_cast<int>((pow(-1,n)+1)/2.0)`. -/
def toggle (n : Int) : Int := (powNegOne n + 1) / 2

/-- The action dispatch at the head of `step`. -/
def apply_action (s : Rocket F) (action : Int) : Rocket F :=
  if action = 1 then { s with ignition := toggle s.ignition }
  else if action = 2 then { s with rotation := toggle s.rotation }
  else if action = 3 then { s with rotation := -toggle s.rotation }
  else s

/-- The method `rotor`. -/
def rotor (s : Rocket F) (local_time : F) : F :=
  s.theta + (s.rotation : F) * w_theta * (local_time - s.t)

/-- The method `differential_ecuations_step`. -/
def differential_ecuations_step (T : Trig F) (s : Rocket F) (t _x _y phi u v w : F) : Deriv F :=
  let force : F := F_e * (s.ignition : F)
  { d0 := u,
    d1 := v,
    d2 := w,
    d3 := -force * T.sin (phi + rotor s t) / m,
    d4 := -g + force * T.cos (phi + rotor s t) / m,
    d5 := 6 * force * b * T.sin (rotor s t) / (m * (a * a + b * b)) }

/-- The method `check`. -/
def check (T : Trig F) (s : Rocket F) : Rocket F :=
  { s with flag := if |s.phi| ≥ phi_max T ∨ |s.x| ≥ area ∨ |s.y| ≥ area then false else true }

/-- The expression `(abs(theta)>=theta_max)?theta_max*theta/abs(theta):theta`. -/
def clamp (theta : F) : F :=
  if |theta| ≥ theta_max then theta_max * theta / |theta| else theta

/-- The body of the integration loop of `step`: one Runge-Kutta micro-step. -/
def micro_step (T : Trig F) (s : Rocket F) : Rocket F :=
  let k1 := differential_ecuations_step T s s.t s.x s.y s.phi s.u s.v s.w
  let k2 := differential_ecuations_step T s (s.t + h * (1 / 2))
    (s.x + 1 / 2 * k1.d0 * h) (s.y + 1 / 2 * k1.d1 * h) (s.phi + 1 / 2 * k1.d2 * h)
    (s.u + 1 / 2 * k1.d3 * h) (s.v + 1 / 2 * k1.d4 * h) (s.w + 1 / 2 * k1.d5 * h)
  let k3 := differential_ecuations_step T s (s.t + h * (1 / 2))
    (s.x + 1 / 2 * k2.d0 * h) (s.y + 1 / 2 * k2.d1 * h) (s.phi + 1 / 2 * k2.d2 * h)
    (s.u + 1 / 2 * k2.d3 * h) (s.v + 1 / 2 * k2.d4 * h) (s.w + 1 / 2 * k2.d5 * h)
  let k4 := differential_ecuations_step T s (s.t + h)
    (s.x + k3.d0 * h) (s.y + k3.d1 * h) (s.phi + k3.d2 * h)
    (s.u + k3.d3 * h) (s.v + k3.d4 * h) (s.w + k3.d5 * h)
  check T
    { s with
      x := s.x + h * (k1.d0 + 2 * k2.d0 + 2 * k3.d0 + k4.d0) / 6,
      y := s.y + h * (k1.d1 + 2 * k2.d1 + 2 * k3.d1 + k4.d1) / 6,
      phi := s.phi + h * (k1.d2 + 2 * k2.d2 + 2 * k3.d2 + k4.d2) / 6,
      u := s.u + h * (k1.d3 + 2 * k2.d3 + 2 * k3.d3 + k4.d3) / 6,
      v := s.v + h * (k1.d4 + 2 * k2.d4 + 2 * k3.d4 + k4.d4) / 6,
      w := s.w + h * (k1.d5 + 2 * k2.d5 + 2 * k3.d5 + k4.d5) / 6,
      theta := clamp (s.theta + (s.rotation : F) * w_theta * h),
      t := s.t + h }

/-- The loop `for(int i=0;i<steps_actualization && flag;i++)`; the `Nat` argument is the
number of iterations left. -/
def integrate (T : Trig F) : Nat → Rocket F → Rocket F
  | 0, s => s
  | n + 1, s => if s.flag then integrate T n (micro_step T s) else s

/-- The value of `static_cast<double>(flag)`. -/
def flagValue (flag : Bool) : F := if flag then 1 else 0

/-- The reward expression `30.0*(1.0+t)/(1.0+pow(x*x+y*y,2))*abs(cos(phi))`. -/
def reward (T : Trig F) (s : Rocket F) : F :=
  30 * (1 + s.t) / (1 + (s.x * s.x + s.y * s.y) ^ 2) * |T.cos s.phi|

/-- The method `step`: the new state and the returned array of 11 elements. -/
def step (T : Trig F) (s : Rocket F) (action : Int) : Rocket F × List F :=
  let s1 := apply_action s action
  if s1.flag then
    let s2 := integrate T steps_actualization s1
    (s2, [s2.x, s2.y, s2.phi, s2.u, s2.v, s2.w, s2.theta, (s2.ignition : F), (s2.rotation : F),
      if s2.flag then 0 + reward T s2 else FINISH_PENALIZATION, flagValue s2.flag])
  else
    (s1, [s1.x, s1.y, s1.phi, s1.u, s1.v, s1.w, s1.theta, (s1.ignition : F), (s1.rotation : F),
      FINISH_PENALIZATION, flagValue s1.flag])

/-- The results (state and returned array) of the `step` calls of a sequence of actions. -/
def steps (T : Trig F) : Rocket F → List Int → List (Rocket F × List F)
  | _, [] => []
  | s, act :: acts => step T s act :: steps T (step T s act).1 acts

/-- The state after `n` executions of the body of the integration loop (the loop without
its test of the flag). -/
def micro_steps (T : Trig F) : Nat → Rocket F → Rocket F
  | 0, s => s
  | n + 1, s => micro_steps T n (micro_step T s)

/-- The condition under which `check` clears the flag: a threshold is reached or exceeded. -/
def out_of_bounds (T : Trig F) (q : Rocket F) : Prop :=
  |q.phi| ≥ phi_max T ∨ |q.x| ≥ area ∨ |q.y| ≥ area

/-- The state after the `step` calls of a sequence of actions. -/
def run (T : Trig F) : Rocket F → List Int → Rocket F
  | s, [] => s
  | s, act :: acts => run T (step T s act).1 acts

/-! ## Rocket: sample states -/

/-- Rational stand-ins for the library functions, for evaluating the simulator. -/
def sample_trig : Trig ℚ := { sin := fun _ => 0, cos := fun _ => 1, pi := 22 / 7 }

/-- The constructor state after `step(1)` and `step(3)` as far as the control state goes:
ignition on, rotation left. -/
def sample_on : Rocket ℚ := { (zero : Rocket ℚ) with ignition := 1, rotation := -1 }

/-- An out-of-bounds simulator state: `x = 10` and the flag cleared. -/
def sample_out : Rocket ℚ := { (zero : Rocket ℚ) with x := 10, v := -3, t := 2, flag := false }

/-- The constructor state with the nozzle rotating to the right. -/
def sample_right : Rocket ℚ := { (zero : Rocket ℚ) with rotation := 1 }

/-- A state one micro-step away from the position threshold: `x = 9.999`, `u = 1`, engine
off, flag set. -/
def sample_edge : Rocket ℚ := { (zero : Rocket ℚ) with x := 9999 / 1000, u := 1 }

/-- A state with the trim angle at its bound and the nozzle rotating to the right. -/
def sample_trim : Rocket ℚ := { (zero : Rocket ℚ) with theta := theta_max, rotation := 1 }

end Rocket

end Repo

/-! # Theorems -/

namespace Repo

namespace ReplayMemory

variable {α : Type}

/-! ## Arithmetic helpers -/

theorem usub_one {L : Nat} (h1 : 1 ≤ L) (h2 : L < U64) : usub L 1 = L - 1 := by
  unfold usub U64 at *
  omega

theorem succ_mod_wrap (n L : Nat) (hL : 0 < L) :
    (n + 1) % L = if n % L = L - 1 then 0 else n % L + 1 := by
  have hlt := Nat.mod_lt n hL
  have hdiv := Nat.div_add_mod n L
  split
  · next h =>
    have : n + 1 = L * (n / L + 1) := by rw [Nat.mul_add]; omega
    rw [this, Nat.mul_mod_right]
  · next h =>
    have h2 : n % L + 1 < L := by omega
    rw [Nat.add_mod, Nat.mod_eq_of_lt (show 1 < L by omega), Nat.mod_eq_of_lt h2]

theorem mod_ne_of_near {i n L : Nat} (hin : i < n) (hnear : n < i + L) : i % L ≠ n % L := by
  intro h
  have hd : L ∣ n - i := (Nat.modEq_iff_dvd' (le_of_lt hin)).mp h
  have := Nat.le_of_dvd (by omega) hd
  omega

theorem mod_shift (k j L : Nat) (hj : j < L) :
    (k + (j + (L - k % L)) % L) % L = j := by
  have hc := Nat.mod_lt k (by omega : 0 < L)
  rw [Nat.add_mod, Nat.mod_mod]
  by_cases hjc : k % L ≤ j
  · have e : j + (L - k % L) = (j - k % L) + L := by omega
    rw [e, Nat.add_mod_right, Nat.mod_eq_of_lt (by omega : j - k % L < L)]
    rw [show k % L + (j - k % L) = j by omega, Nat.mod_eq_of_lt hj]
  · rw [Nat.mod_eq_of_lt (by omega : j + (L - k % L) < L)]
    rw [show k % L + (j + (L - k % L)) = j + L by omega, Nat.add_mod_right, Nat.mod_eq_of_lt hj]

/-! ## append -/

theorem appendAll_append (m : ReplayMemory α) (xs ys : List (List α)) :
    appendAll m (xs ++ ys) = (appendAll m xs).bind (fun m1 => appendAll m1 ys) := by
  induction xs generalizing m with
  | nil => simp [appendAll]
  | cons x xs ih =>
    simp only [List.cons_append, appendAll]
    cases append m x with
    | none => simp
    | some m1 => simpa using ih m1

/-- The state after any number of `append` calls on a fresh buffer, whatever value the
construction left in the pointer `shuffle_list`. -/
theorem appendAll_init (L w : Nat) (p : Option (List Nat)) (hL : 1 ≤ L) (hL64 : L < U64)
    (rs : List (List α)) :
    ∃ m : ReplayMemory α, appendAll (init L w p) rs = some m ∧
      m.length = L ∧ m.width = w ∧ m.data.length = L ∧ m.cont = rs.length % L ∧
      m.dimension = min rs.length L ∧ m.shuffle_list = p ∧ m.position = 0 ∧
      ∀ i (hi : i < rs.length), rs.length ≤ i + L → m.data[i % L]? = some rs[i] := by
  induction rs using List.reverseRecOn with
  | nil =>
    refine ⟨init L w p, rfl, rfl, rfl, by simp [init], ?_, by simp [init], rfl, rfl, ?_⟩
    · simp [init]
    · intro i hi; simp at hi
  | append_singleton rs r ih =>
    obtain ⟨m, hm, hlen, hw, hdl, hcont, hdim, hsl, hpos, hdata⟩ := ih
    have hclt : m.cont < m.data.length := by
      rw [hcont, hdl]; exact Nat.mod_lt _ (by omega)
    have happ : append m r = some { m with
        data := m.data.set m.cont r,
        cont := if m.cont = usub m.length 1 then 0 else (m.cont + 1) % U64,
        dimension := if m.dimension = m.length then m.dimension else (m.dimension + 1) % U64 } := by
      simp [append, hclt]
    refine ⟨{ m with
        data := m.data.set m.cont r,
        cont := if m.cont = usub m.length 1 then 0 else (m.cont + 1) % U64,
        dimension := if m.dimension = m.length then m.dimension else (m.dimension + 1) % U64 },
      ?_, ?_, ?_, ?_, ?_, ?_, ?_, ?_, ?_⟩
    · rw [appendAll_append, hm]
      simp only [Option.some_bind, appendAll, happ]
    · exact hlen
    · exact hw
    · simp [hdl]
    · simp only [hlen, usub_one hL hL64, hcont, List.length_append, List.length_singleton]
      have key := succ_mod_wrap rs.length L (by omega)
      have hlt := Nat.mod_lt rs.length (by omega : 0 < L)
      by_cases hc : rs.length % L = L - 1
      · rw [if_pos hc] at key
        rw [if_pos hc, key]
      · rw [if_neg hc] at key
        rw [if_neg hc, key, Nat.mod_eq_of_lt]
        unfold U64 at *; omega
    · simp only [hlen, hdim, List.length_append, List.length_singleton]
      split
      · omega
      · rw [Nat.mod_eq_of_lt (by unfold U64 at *; omega)]; omega
    · exact hsl
    · exact hpos
    · intro i hi hnear
      simp only [List.length_append, List.length_singleton] at hi hnear
      simp only [hcont]
      by_cases hin : i = rs.length
      · subst hin
        simp [hdl, Nat.mod_lt _ (by omega : 0 < L)]
      · have hi2 : i < rs.length := by omega
        rw [List.getElem?_set_ne (mod_ne_of_near hi2 (by omega)).symm]
        rw [hdata i hi2 (by omega)]
        simp [List.getElem_append_left hi2]

/-- C1 (ring overwrite).  For every capacity `L ≥ 1` (an `unsigned long`), every `k` (in
particular every `k ≥ 1`) and every sequence `rs` of `L + k` records, appending `rs` in order
to a freshly constructed `ReplayMemory(L, w)` (whatever value `p` the construction left in
the pointer `shuffle_list`, which `append` and `len` do not read) succeeds and gives a state
in which `len()` returns `L`, the buffer has `L` slots, the record appended at position
`i ≥ k` (counted from 0) is in slot `i mod L`, and the slots hold exactly the last `L`
records: the slot contents are a rearrangement of `rs` without its first `k` records. -/
theorem ring_overwrite (L w k : Nat) (p : Option (List Nat)) (rs : List (List α)) (hL : 1 ≤ L)
    (hL64 : L < U64) (hlen : rs.length = L + k) :
    ∃ m : ReplayMemory α, appendAll (init L w p) rs = some m ∧ len m = L ∧
      m.data.length = L ∧
      (∀ i (hi : i < rs.length), k ≤ i → m.data[i % L]? = some rs[i]) ∧
      List.Perm m.data (rs.drop k) := by
  obtain ⟨m, hm, -, -, hdl, -, hdim, -, -, hdata⟩ := appendAll_init L w p hL hL64 rs
  refine ⟨m, hm, ?_, hdl, ?_, ?_⟩
  · simp only [len, hdim, hlen]; omega
  · intro i hi hki
    exact hdata i hi (by omega)
  · have hrot : m.data = (rs.drop k).rotate (L - k % L) := by
      apply List.ext_getElem
      · simp [hdl, hlen]
      · intro j h1 h2
        have hjL : j < L := by rw [hdl] at h1; exact h1
        have hdk : (rs.drop k).length = L := by simp [hlen]
        rw [List.getElem_rotate, List.getElem_drop]
        have hlt : (j + (L - k % L)) % L < L := Nat.mod_lt _ (by omega)
        have hidx : k + (j + (L - k % L)) % L < rs.length := by omega
        have h3 := hdata (k + (j + (L - k % L)) % L) hidx (by omega)
        rw [mod_shift k j L hjL] at h3
        rw [List.getElem?_eq_getElem h1] at h3
        simp only [hdk]
        exact Option.some.inj h3
    rw [hrot]
    exact List.rotate_perm _ _

/-- Instance of `ring_overwrite`: capacity 2, three records. -/
theorem ring_overwrite_witness :
    ∃ m : ReplayMemory Nat, appendAll (init 2 1 none) [[10], [11], [12]] = some m ∧
      len m = 2 ∧ m.data.length = 2 ∧
      (∀ i (hi : i < [[10], [11], [12]].length), 1 ≤ i →
        m.data[i % 2]? = some ([[10], [11], [12]] : List (List Nat))[i]) ∧
      List.Perm m.data (([[10], [11], [12]] : List (List Nat)).drop 1) :=
  ring_overwrite 2 1 1 none [[10], [11], [12]] (by decide) (by decide) (by decide)

/-! ## shuffle -/

theorem swapAt_length (xs : List Nat) (i j : Nat) : (swapAt xs i j).length = xs.length := by
  simp [swapAt]

theorem swapAt_adjacent_perm (xs : List Nat) (j : Nat) (h : j + 1 < xs.length) :
    List.Perm (swapAt xs j (j + 1)) xs := by
  induction xs generalizing j with
  | nil => simp at h
  | cons a t ih =>
    cases j with
    | zero =>
      cases t with
      | nil => simp at h
      | cons b t1 =>
        simp only [swapAt, List.getD_cons_succ, List.getD_cons_zero, List.set_cons_zero,
          List.set_cons_succ, zero_add]
        exact List.Perm.swap a b t1
    | succ j1 =>
      have h1 : j1 + 1 < t.length := by simpa using h
      have e : swapAt (a :: t) (j1 + 1) (j1 + 1 + 1) = a :: swapAt t j1 (j1 + 1) := by
        simp [swapAt]
      rw [e]
      exact (ih j1 h1).cons a

theorem shuffle_inner_perm (n : Nat) (rn sl : List Nat) (h : n < sl.length) :
    List.Perm (shuffle_inner rn sl n n).2 sl := by
  induction n generalizing rn sl with
  | zero => simp [shuffle_inner]
  | succ j ih =>
    unfold shuffle_inner
    split
    · have hl : j < (swapAt sl j (j + 1)).length := by rw [swapAt_length]; omega
      exact (ih _ _ hl).trans (swapAt_adjacent_perm sl j h)
    · exact List.Perm.refl _

theorem shuffle_loop_perm (keys : Nat → Nat) (k i : Nat) (st : List Nat × List Nat)
    (h : List.Perm st.2 (List.range i)) :
    List.Perm (shuffle_loop keys k i st).2 (List.range (i + k)) := by
  induction k generalizing i st with
  | zero => simpa [shuffle_loop] using h
  | succ k ih =>
    unfold shuffle_loop
    have hlen : st.2.length = i := by simpa using h.length_eq
    have h1 : List.Perm (st.2 ++ [i]) (List.range (i + 1)) := by
      rw [List.range_succ]
      exact h.append_right [i]
    have h2 : List.Perm (shuffle_inner (st.1 ++ [keys i]) (st.2 ++ [i]) i i).2
        (List.range (i + 1)) :=
      (shuffle_inner_perm i _ _ (by simp [hlen])).trans h1
    have := ih (i + 1) _ h2
    rwa [show i + 1 + k = i + (k + 1) by omega] at this

/-- The list built by `shuffle` is a rearrangement of `0, ..., n-1`. -/
theorem shuffle_keys_perm (keys : Nat → Nat) (n : Nat) (h1 : 1 ≤ n) (h2 : n < 2 ^ 63) :
    List.Perm (shuffle_keys keys n) (List.range n) := by
  unfold shuffle_keys
  have hi : (toInt64 n - 1).toNat = n - 1 := by
    unfold toInt64
    have e : n % 2 ^ 64 = n := Nat.mod_eq_of_lt (by omega)
    rw [e, if_pos h2]
    omega
  rw [hi]
  have := shuffle_loop_perm keys (n - 1) 1 ([keys 0], [0]) (by simp [List.range_succ])
  rwa [show 1 + (n - 1) = n by omega] at this

/-- C2.  For every buffer whose size `n = dimension` satisfies `1 ≤ n` (`n` below `2^63`, the
range in which the signed loop bound `(long long int)dimension` equals `dimension`) and for
every sequence of random keys, `shuffle()` succeeds and leaves a `shuffle_list` that is a
permutation of `[0, n)`: it has `n` entries and every index `0..n-1` occurs in it exactly
once. -/
theorem shuffle_permutation (m : ReplayMemory α) (keys : Nat → Nat) (h1 : 1 ≤ m.dimension)
    (h2 : m.dimension < 2 ^ 63) :
    ∃ (m1 : ReplayMemory α) (sl : List Nat), shuffle m keys = some m1 ∧
      m1.shuffle_list = some sl ∧ List.Perm sl (List.range m.dimension) ∧
      sl.length = m.dimension ∧ ∀ i, i < m.dimension → sl.count i = 1 := by
  have hp := shuffle_keys_perm keys m.dimension h1 h2
  refine ⟨{ m with shuffle_list := some (shuffle_keys keys m.dimension) },
    shuffle_keys keys m.dimension, ?_, rfl, hp, ?_, ?_⟩
  · simp [shuffle, Nat.pos_iff_ne_zero.mp h1]
  · simpa using hp.length_eq
  · intro i hi
    rw [hp.count_eq]
    exact List.count_eq_one_of_mem (List.nodup_range _) (List.mem_range.mpr hi)

/-! ## batch: arithmetic of `rest` and `position` -/

theorem toInt32_lt (v : Nat) : toInt32 v < 2 ^ 31 := by
  unfold toInt32
  have := Nat.mod_lt v (by norm_num : 0 < 2 ^ 32)
  split <;> omega

theorem toInt32_of_lt {v : Nat} (h : v < 2 ^ 31) : toInt32 v = (v : Int) := by
  unfold toInt32
  have e : v % 2 ^ 32 = v := Nat.mod_eq_of_lt (by omega)
  rw [e, if_pos h]

theorem ofInt_toNat {z : Int} (h0 : 0 ≤ z) (h1 : z < 2 ^ 31) : ofInt z = z.toNat := by
  unfold ofInt
  rw [Int.emod_eq_of_lt h0 (by omega)]

theorem usub_of_le {a b : Nat} (hb : b ≤ a) (ha : a < U64) : usub a b = a - b := by
  unfold usub U64 at *
  have e : b % 2 ^ 64 = b := Nat.mod_eq_of_lt (by omega)
  rw [e]
  omega

/-- Without wrap-around of `position+bsize`, `rest` is the conversion to `int` of
`min(bsize, dimension - position)`. -/
theorem batch_rest_eq {position bsize dimension : Nat} (hp : position < dimension)
    (hd : dimension < U64) (hsum : position + bsize < U64) :
    batch_rest position bsize dimension = toInt32 (min bsize (dimension - position)) := by
  unfold batch_rest
  rw [Nat.mod_eq_of_lt hsum, usub_of_le (by omega) hd, usub_of_le (by omega) hd]
  split
  · rw [Nat.min_eq_left (by omega)]
  · rw [Nat.min_eq_right (by omega)]

/-! ## batch: the copy loop -/

theorem map_getD_range' (sl : List Nat) (p r : Nat) (h : p + r ≤ sl.length) :
    (List.range' p r).map (fun i => sl.getD i 0) = (sl.drop p).take r := by
  apply List.ext_getElem
  · simp; omega
  · intro i h1 h2
    simp only [List.length_map, List.length_range'] at h1
    simp only [List.getElem_map, List.getElem_range', List.getElem_take, List.getElem_drop,
      one_mul]
    rw [List.getD_eq_getElem _ _ (by omega)]

theorem readAt_range' (sl : List Nat) (p r : Nat) :
    readAt sl 0 (List.range' p r) =
      if r = 0 ∨ p + r ≤ sl.length then some ((sl.drop p).take r) else none := by
  unfold readAt
  by_cases h : r = 0 ∨ p + r ≤ sl.length
  · rw [if_pos h]
    rcases h with h | h
    · subst h; simp
    · rw [if_pos, map_getD_range' sl p r h]
      intro i hi
      rw [List.mem_range'_1] at hi
      omega
  · rw [if_neg h, if_neg]
    intro hall
    apply h
    right
    have := hall (p + r - 1) (by rw [List.mem_range'_1]; omega)
    omega

/-- The slots read by `batch` when a permutation is present. -/
theorem batch_slots_some (m : ReplayMemory α) (sl : List Nat) (bsize : Nat) (keys : Nat → Nat)
    (hsl : m.shuffle_list = some sl) (hpos : m.position ≤ m.dimension)
    (hdim : m.dimension < 2 ^ 63) :
    batch_slots m bsize keys =
      if batch_rest m.position bsize m.dimension < 0 then none
      else if (batch_rest m.position bsize m.dimension).toNat = 0 ∨
          m.position + (batch_rest m.position bsize m.dimension).toNat ≤ sl.length then
        some ((sl.drop m.position).take (batch_rest m.position bsize m.dimension).toNat)
      else none := by
  have hprep : batch_prepare m keys = some m := by simp [batch_prepare, hsl]
  simp only [batch_slots, hprep, Option.some_bind, hsl]
  by_cases hneg : batch_rest m.position bsize m.dimension < 0
  · simp [hneg]
  · have h0 : 0 ≤ batch_rest m.position bsize m.dimension := by omega
    have h1 := toInt32_lt (if (m.position + bsize) % U64 ≤ usub m.dimension 1 then bsize
      else usub m.dimension m.position)
    have h1 : batch_rest m.position bsize m.dimension < 2 ^ 31 := h1
    have hr : (batch_rest m.position bsize m.dimension).toNat < 2 ^ 31 := by omega
    have hbp : batch_position m bsize =
        m.position + (batch_rest m.position bsize m.dimension).toNat := by
      unfold batch_position
      rw [ofInt_toNat h0 h1, Nat.mod_eq_of_lt (by unfold U64; omega)]
    rw [if_neg hneg, if_neg hneg, hbp, ofInt_toNat h0 h1,
      usub_of_le (by omega) (by unfold U64; omega)]
    rw [show m.position + (batch_rest m.position bsize m.dimension).toNat -
      (batch_rest m.position bsize m.dimension).toNat = m.position by omega]
    rw [show m.position + (batch_rest m.position bsize m.dimension).toNat - m.position =
      (batch_rest m.position bsize m.dimension).toNat by omega]
    exact readAt_range' sl _ _

theorem batch_position_some (m : ReplayMemory α) (bsize : Nat)
    (hpos : m.position ≤ m.dimension) (hdim : m.dimension < 2 ^ 63)
    (h0 : 0 ≤ batch_rest m.position bsize m.dimension) :
    batch_position m bsize = m.position + (batch_rest m.position bsize m.dimension).toNat := by
  have h1 := toInt32_lt (if (m.position + bsize) % U64 ≤ usub m.dimension 1 then bsize
    else usub m.dimension m.position)
  have h1 : batch_rest m.position bsize m.dimension < 2 ^ 31 := h1
  unfold batch_position
  rw [ofInt_toNat h0 h1, Nat.mod_eq_of_lt (by unfold U64; omega)]

/-! ## batch: one call -/

/-- A `batch` call made while a permutation `sl` is present returns the rows of a slice
`sl[position .. position + r)` and moves `position` to its end, or completes the pass. -/
theorem batch_inv (m m1 : ReplayMemory α) (sl : List Nat) (bsize : Nat) (keys : Nat → Nat)
    (rows : List (List α))
    (hsl : m.shuffle_list = some sl) (hlen : sl.length = m.dimension)
    (hpos : m.position ≤ m.dimension) (hdim : m.dimension < 2 ^ 63)
    (h : batch m bsize keys = some (rows, m1)) :
    ∃ r, batch_slots m bsize keys = some ((sl.drop m.position).take r) ∧
      m.position + r ≤ m.dimension ∧
      rows = ((sl.drop m.position).take r).map (fun s => (m.data.getD s []).take m.width) ∧
      (∀ s ∈ (sl.drop m.position).take r, s < m.data.length) ∧
      m1 = (if m.position + r = m.dimension then { m with position := 0, shuffle_list := none }
        else { m with position := m.position + r }) := by
  have hprep : batch_prepare m keys = some m := by simp [batch_prepare, hsl]
  have hs := batch_slots_some m sl bsize keys hsl hpos hdim
  simp only [batch, hprep, Option.some_bind] at h
  by_cases hneg : batch_rest m.position bsize m.dimension < 0
  · rw [if_pos hneg] at hs
    rw [hs] at h
    simp at h
  · rw [if_neg hneg] at hs
    by_cases hc : (batch_rest m.position bsize m.dimension).toNat = 0 ∨
        m.position + (batch_rest m.position bsize m.dimension).toNat ≤ sl.length
    · rw [if_pos hc] at hs
      refine ⟨(batch_rest m.position bsize m.dimension).toNat, hs, by omega, ?_⟩
      rw [hs, Option.some_bind, batch_position_some m bsize hpos hdim (by omega)] at h
      unfold copyRows at h
      split at h
      · next hall =>
        simp only [Option.some_bind, Option.some.injEq, Prod.mk.injEq] at h
        exact ⟨h.1.symm, fun s hs1 => (hall s hs1).1, h.2.symm⟩
      · simp at h
    · rw [if_neg hc] at hs
      rw [hs] at h
      simp at h

/-- A `batch` call made without a permutation first runs `shuffle`. -/
theorem batch_fresh (m : ReplayMemory α) (bsize : Nat) (keys : Nat → Nat)
    (hsl : m.shuffle_list = none) (hdim : 1 ≤ m.dimension) :
    shuffle m keys = some { m with shuffle_list := some (shuffle_keys keys m.dimension) } ∧
    batch m bsize keys =
      batch { m with shuffle_list := some (shuffle_keys keys m.dimension) } bsize keys ∧
    batch_slots m bsize keys =
      batch_slots { m with shuffle_list := some (shuffle_keys keys m.dimension) } bsize keys := by
  have hsh : shuffle m keys =
      some { m with shuffle_list := some (shuffle_keys keys m.dimension) } := by
    simp [shuffle, Nat.pos_iff_ne_zero.mp hdim]
  have hp1 : batch_prepare m keys =
      some { m with shuffle_list := some (shuffle_keys keys m.dimension) } := by
    simp [batch_prepare, hsl, hsh]
  have hp2 : batch_prepare { m with shuffle_list := some (shuffle_keys keys m.dimension) } keys =
      some { m with shuffle_list := some (shuffle_keys keys m.dimension) } := by
    simp [batch_prepare]
  have hslots : batch_slots m bsize keys =
      batch_slots { m with shuffle_list := some (shuffle_keys keys m.dimension) } bsize keys := by
    simp only [batch_slots, hp1, hp2]
  refine ⟨hsh, ?_, hslots⟩
  simp only [batch, hp1, hp2, hslots]

/-! ## batch: runs of calls -/

theorem batch_slots_of_batch (m m1 : ReplayMemory α) (bsize : Nat) (keys : Nat → Nat)
    (rows : List (List α)) (h : batch m bsize keys = some (rows, m1)) :
    ∃ slots, batch_slots m bsize keys = some slots ∧ rows.length = slots.length := by
  unfold batch at h
  cases hp : batch_prepare m keys with
  | none => simp [hp] at h
  | some m0 =>
    cases hs : batch_slots m bsize keys with
    | none => simp [hp, hs] at h
    | some slots =>
      refine ⟨slots, rfl, ?_⟩
      simp only [hp, hs, Option.some_bind] at h
      unfold copyRows at h
      split at h
      · simp only [Option.some_bind, Option.some.injEq, Prod.mk.injEq] at h
        rw [← h.1]; simp
      · simp at h

theorem batchAll_cons_some (m m2 : ReplayMemory α) (c : Nat × (Nat → Nat))
    (cs : List (Nat × (Nat → Nat))) (blocks : List (List (List α)))
    (h : batchAll m (c :: cs) = some (blocks, m2)) :
    ∃ rows m1 bs, batch m c.1 c.2 = some (rows, m1) ∧ batchAll m1 cs = some (bs, m2) ∧
      blocks = rows :: bs := by
  simp only [batchAll] at h
  cases hb : batch m c.1 c.2 with
  | none => simp [hb] at h
  | some r =>
    cases hr : batchAll r.2 cs with
    | none => simp [hb, hr] at h
    | some rs =>
      simp only [hb, hr, Option.some_bind, Option.some.injEq, Prod.mk.injEq] at h
      exact ⟨r.1, r.2, rs.1, rfl, by rw [hr, ← h.2], h.1.symm⟩

/-- A run that returns blocks also reads slots, one per returned row. -/
theorem batchAll_slots_of_batchAll (calls : List (Nat × (Nat → Nat))) (m m2 : ReplayMemory α)
    (blocks : List (List (List α))) (h : batchAll m calls = some (blocks, m2)) :
    ∃ slots, batchAll_slots m calls = some slots ∧ slots.length = blocks.flatten.length := by
  induction calls generalizing m blocks with
  | nil =>
    simp only [batchAll, Option.some.injEq, Prod.mk.injEq] at h
    exact ⟨[], rfl, by rw [← h.1]; simp⟩
  | cons c cs ih =>
    obtain ⟨rows, m1, bs, hb, hrest, hblocks⟩ := batchAll_cons_some m m2 c cs blocks h
    obtain ⟨s, hs, hsl⟩ := batch_slots_of_batch m m1 c.1 c.2 rows hb
    obtain ⟨ss, hss, hssl⟩ := ih m1 bs hrest
    refine ⟨s ++ ss, ?_, ?_⟩
    · simp only [batchAll_slots, hb, hs, hss, Option.some_bind]
    · rw [hblocks]; simp [hsl, hssl]

/-- A run started inside a pass that returns exactly the rows left in the pass reads the
rest of the permutation, in order. -/
theorem batchAll_inpass (calls : List (Nat × (Nat → Nat))) (m m2 : ReplayMemory α)
    (sl : List Nat) (blocks : List (List (List α)))
    (hsl : m.shuffle_list = some sl) (hlen : sl.length = m.dimension)
    (hpos : m.position ≤ m.dimension) (hdim : m.dimension < 2 ^ 63)
    (h : batchAll m calls = some (blocks, m2))
    (htotal : blocks.flatten.length = m.dimension - m.position) :
    batchAll_slots m calls = some (sl.drop m.position) ∧
      blocks.flatten = (sl.drop m.position).map (fun s => (m.data.getD s []).take m.width) := by
  induction calls generalizing m blocks with
  | nil =>
    simp only [batchAll, Option.some.injEq, Prod.mk.injEq] at h
    rw [← h.1] at htotal ⊢
    simp only [List.flatten_nil, List.length_nil] at htotal
    have e : sl.drop m.position = [] := List.drop_eq_nil_of_le (by omega)
    simp [batchAll_slots, e]
  | cons c cs ih =>
    obtain ⟨rows, m1, bs, hb, hrest, hblocks⟩ := batchAll_cons_some m m2 c cs blocks h
    obtain ⟨r, hs, hle, hrows, -, hm1⟩ := batch_inv m m1 sl c.1 c.2 rows hsl hlen hpos hdim hb
    have hrl : rows.length = r := by
      rw [hrows]; simp; omega
    rw [hblocks] at htotal ⊢
    simp only [List.flatten_cons, List.length_append, hrl] at htotal
    have hsplit : (sl.drop m.position).take r ++ sl.drop (m.position + r) = sl.drop m.position := by
      have := List.take_append_drop r (sl.drop m.position)
      rwa [List.drop_drop] at this
    by_cases hdone : m.position + r = m.dimension
    · obtain ⟨ss, hss, hssl⟩ := batchAll_slots_of_batchAll cs m1 m2 bs hrest
      have hss0 : ss = [] := List.length_eq_zero.mp (by omega)
      have hbs0 : bs.flatten = [] := List.length_eq_zero.mp (by omega)
      have hd0 : sl.drop (m.position + r) = [] := List.drop_eq_nil_of_le (by omega)
      rw [hd0, List.append_nil] at hsplit
      subst hss0
      constructor
      · simp only [batchAll_slots, hb, hs, hss, Option.some_bind, List.append_nil, hsplit]
      · simp only [List.flatten_cons, hbs0, List.append_nil, hrows, hsplit]
    · rw [if_neg hdone] at hm1
      have hsl1 : m1.shuffle_list = some sl := by rw [hm1]; exact hsl
      have hp1 : m1.position = m.position + r := by rw [hm1]
      have hd1 : m1.dimension = m.dimension := by rw [hm1]
      have hdata1 : m1.data = m.data := by rw [hm1]
      have hw1 : m1.width = m.width := by rw [hm1]
      obtain ⟨hss, hbs⟩ := ih m1 bs hsl1 (by rw [hd1]; exact hlen) (by rw [hp1, hd1]; exact hle)
        (by rw [hd1]; exact hdim) hrest (by rw [hp1, hd1]; omega)
      rw [hp1] at hss hbs
      rw [hdata1, hw1] at hbs
      constructor
      · simp only [batchAll_slots, hb, hs, hss, Option.some_bind, hsplit]
      · rw [List.flatten_cons, hbs, hrows, ← List.map_append, hsplit]

/-! ## batch: the call on a well-formed buffer -/

/-- The result of `batch` during a pass over a well-formed buffer, for a batch size that
fits the `int rest`. -/
theorem batch_spec (m : ReplayMemory α) (sl : List Nat) (bsize : Nat) (keys : Nat → Nat)
    (hwf : WellFormed m) (hsl : m.shuffle_list = some sl)
    (hperm : List.Perm sl (List.range m.dimension)) (hpos : m.position < m.dimension)
    (hb : bsize < 2 ^ 31) :
    batch m bsize keys = some
      (((sl.drop m.position).take (min bsize (m.dimension - m.position))).map
          (fun s => (m.data.getD s []).take m.width),
        if m.position + min bsize (m.dimension - m.position) = m.dimension then
          { m with position := 0, shuffle_list := none }
        else { m with position := m.position + min bsize (m.dimension - m.position) }) := by
  have hdim := hwf.dimension_lt
  have hlen : sl.length = m.dimension := by simpa using hperm.length_eq
  have hmin : min bsize (m.dimension - m.position) < 2 ^ 31 :=
    lt_of_le_of_lt (Nat.min_le_left _ _) hb
  have hrest : batch_rest m.position bsize m.dimension =
      ((min bsize (m.dimension - m.position) : Nat) : Int) := by
    rw [batch_rest_eq hpos (by unfold U64; omega) (by unfold U64; omega), toInt32_of_lt hmin]
  have hprep : batch_prepare m keys = some m := by simp [batch_prepare, hsl]
  have hs := batch_slots_some m sl bsize keys hsl (le_of_lt hpos) hdim
  have hbp := batch_position_some m bsize (le_of_lt hpos) hdim (by rw [hrest]; omega)
  rw [hrest] at hs hbp
  simp only [Int.toNat_ofNat] at hs hbp
  rw [if_neg (by omega), if_pos (Or.inr (by rw [hlen]; omega))] at hs
  simp only [batch, hprep, hs, Option.some_bind, hbp]
  have hall : ∀ s ∈ (sl.drop m.position).take (min bsize (m.dimension - m.position)),
      s < m.data.length ∧ m.width ≤ (m.data.getD s []).length := by
    intro s hs1
    have hmem : s ∈ sl := List.mem_of_mem_drop (List.mem_of_mem_take hs1)
    have hlt : s < m.dimension := List.mem_range.mp (hperm.mem_iff.mp hmem)
    exact ⟨lt_of_lt_of_le hlt hwf.dimension_le, le_of_eq (hwf.rows s hlt).symm⟩
  simp only [copyRows, if_pos hall, Option.some_bind]

/-- A `batch` call on a well-formed buffer between two calls returns a block and leaves a
well-formed buffer in a state between two calls. -/
theorem batch_total (m : ReplayMemory α) (bsize : Nat) (keys : Nat → Nat)
    (hwf : WellFormed m) (hn : 1 ≤ m.dimension) (hps : PassState m) (hb : bsize < 2 ^ 31) :
    ∃ rows m1, batch m bsize keys = some (rows, m1) ∧ WellFormed m1 ∧ PassState m1 ∧
      m1.dimension = m.dimension ∧ rows.length = min bsize (m.dimension - m.position) ∧
      m1.position = (if m.position + min bsize (m.dimension - m.position) = m.dimension then 0
        else m.position + min bsize (m.dimension - m.position)) ∧
      (m.position + min bsize (m.dimension - m.position) = m.dimension →
        m1.shuffle_list = none) := by
  have key : ∀ (m0 : ReplayMemory α) (sl : List Nat), WellFormed m0 →
      m0.shuffle_list = some sl → List.Perm sl (List.range m0.dimension) →
      m0.position < m0.dimension →
      ∃ rows m1, batch m0 bsize keys = some (rows, m1) ∧ WellFormed m1 ∧ PassState m1 ∧
        m1.dimension = m0.dimension ∧ rows.length = min bsize (m0.dimension - m0.position) ∧
        m1.position = (if m0.position + min bsize (m0.dimension - m0.position) = m0.dimension
          then 0 else m0.position + min bsize (m0.dimension - m0.position)) ∧
        (m0.position + min bsize (m0.dimension - m0.position) = m0.dimension →
          m1.shuffle_list = none) := by
    intro m0 sl hwf0 hsl0 hperm0 hpos0
    have hlen : sl.length = m0.dimension := by simpa using hperm0.length_eq
    refine ⟨_, _, batch_spec m0 sl bsize keys hwf0 hsl0 hperm0 hpos0 hb, ?_, ?_, ?_, ?_, ?_, ?_⟩
    · split
      · exact ⟨hwf0.dimension_le, hwf0.dimension_lt, hwf0.rows⟩
      · exact ⟨hwf0.dimension_le, hwf0.dimension_lt, hwf0.rows⟩
    · split
      · exact Or.inl ⟨rfl, rfl⟩
      · next hne =>
        refine Or.inr ⟨sl, hsl0, hperm0, ?_⟩
        show m0.position + min bsize (m0.dimension - m0.position) < m0.dimension
        omega
    · split <;> rfl
    · simp; omega
    · split <;> rfl
    · intro hdone
      rw [if_pos hdone]
  rcases hps with ⟨hnone, hp0⟩ | ⟨sl, hsl, hperm, hpos⟩
  · obtain ⟨-, hb1, -⟩ := batch_fresh m bsize keys hnone hn
    rw [hb1]
    have := key { m with shuffle_list := some (shuffle_keys keys m.dimension) }
      (shuffle_keys keys m.dimension) ⟨hwf.dimension_le, hwf.dimension_lt, hwf.rows⟩ rfl
      (shuffle_keys_perm keys m.dimension hn hwf.dimension_lt)
      (show m.position < m.dimension by omega)
    exact this
  · exact key m sl hwf hsl hperm hpos

theorem batchAll_total (calls : List (Nat × (Nat → Nat))) (m : ReplayMemory α)
    (hwf : WellFormed m) (hn : 1 ≤ m.dimension) (hps : PassState m)
    (hb : ∀ c ∈ calls, c.1 < 2 ^ 31) :
    ∃ res, batchAll m calls = some res := by
  induction calls generalizing m with
  | nil => exact ⟨([], m), rfl⟩
  | cons c cs ih =>
    obtain ⟨rows, m1, hb1, hwf1, hps1, hd1, -, -, -⟩ :=
      batch_total m c.1 c.2 hwf hn hps (hb c (List.mem_cons_self _ _))
    obtain ⟨res, hres⟩ := ih m1 hwf1 (by omega) hps1
      (fun c1 hc1 => hb c1 (List.mem_cons_of_mem _ hc1))
    exact ⟨(rows :: res.1, res.2), by simp [batchAll, hb1, hres]⟩

/-- C3 (pass completeness).  Take a buffer with `n = dimension ≥ 1` records (`n` below `2^63`)
and no current permutation (`shuffle_list` null, `position = 0`), and any sequence of `batch`
calls with nothing in between.  If the calls return blocks that together hold exactly `n`
rows, then the slot indices read, concatenated in call order, are a rearrangement of
`0, ..., n-1` (every index of `[0, n)` occurs exactly once) and the returned rows are the
stored records of these slots in that order.  Moreover the calls do return: on a well-formed
buffer every sequence of calls with batch sizes below `2^31` yields a result. -/
theorem pass_completeness (m : ReplayMemory α) (calls : List (Nat × (Nat → Nat)))
    (hn : 1 ≤ m.dimension) (hd : m.dimension < 2 ^ 63)
    (hsl : m.shuffle_list = none) (hpos : m.position = 0) :
    (∀ blocks m2, batchAll m calls = some (blocks, m2) →
      blocks.flatten.length = m.dimension →
      ∃ slots, batchAll_slots m calls = some slots ∧
        List.Perm slots (List.range m.dimension) ∧
        (∀ i, i < m.dimension → slots.count i = 1) ∧
        blocks.flatten = slots.map (fun s => (m.data.getD s []).take m.width)) ∧
    (WellFormed m → (∀ c ∈ calls, c.1 < 2 ^ 31) → ∃ res, batchAll m calls = some res) := by
  constructor
  · intro blocks m2 hrun htotal
    cases calls with
    | nil =>
      simp only [batchAll, Option.some.injEq, Prod.mk.injEq] at hrun
      rw [← hrun.1] at htotal
      simp at htotal
      omega
    | cons c cs =>
      obtain ⟨-, hb1, hs1⟩ := batch_fresh m c.1 c.2 hsl hn
      have hperm := shuffle_keys_perm c.2 m.dimension hn hd
      have hrun1 : batchAll { m with shuffle_list := some (shuffle_keys c.2 m.dimension) }
          (c :: cs) = some (blocks, m2) := by
        rw [← hrun]; simp only [batchAll, hb1]
      have hslots1 : batchAll_slots m (c :: cs) =
          batchAll_slots { m with shuffle_list := some (shuffle_keys c.2 m.dimension) }
            (c :: cs) := by
        simp only [batchAll_slots, hb1, hs1]
      have := batchAll_inpass (c :: cs)
        { m with shuffle_list := some (shuffle_keys c.2 m.dimension) } m2
        (shuffle_keys c.2 m.dimension) blocks rfl (by simpa using hperm.length_eq)
        (show m.position ≤ m.dimension by omega) hd hrun1
        (show blocks.flatten.length = m.dimension - m.position by omega)
      obtain ⟨h1, h2⟩ := this
      have e : List.drop m.position (shuffle_keys c.2 m.dimension) =
          shuffle_keys c.2 m.dimension := by rw [hpos, List.drop_zero]
      change _ = some (List.drop m.position (shuffle_keys c.2 m.dimension)) at h1
      change _ = (List.drop m.position (shuffle_keys c.2 m.dimension)).map
        (fun s => (m.data.getD s []).take m.width) at h2
      rw [e] at h1 h2
      refine ⟨shuffle_keys c.2 m.dimension, by rw [hslots1]; exact h1, hperm, ?_, h2⟩
      intro i hi
      rw [hperm.count_eq]
      exact List.count_eq_one_of_mem (List.nodup_range _) (List.mem_range.mpr hi)
  · intro hwf hb
    exact batchAll_total calls m hwf hn (Or.inl ⟨hsl, hpos⟩) hb

/-! ## Bounds on the cursors in reachable states -/

theorem shuffle_inner_length (n : Nat) (rn sl : List Nat) (c : Nat) :
    (shuffle_inner rn sl c n).2.length = sl.length := by
  induction n generalizing rn sl c with
  | zero => simp [shuffle_inner]
  | succ j ih =>
    unfold shuffle_inner
    split
    · rw [ih, swapAt_length]
    · rfl

theorem shuffle_loop_length (keys : Nat → Nat) (k i : Nat) (st : List Nat × List Nat) :
    (shuffle_loop keys k i st).2.length = st.2.length + k := by
  induction k generalizing i st with
  | zero => simp [shuffle_loop]
  | succ k ih =>
    unfold shuffle_loop
    rw [ih, shuffle_inner_length]
    simp; omega

theorem shuffle_keys_length_le (keys : Nat → Nat) (n : Nat) (h1 : 1 ≤ n) :
    (shuffle_keys keys n).length ≤ n := by
  unfold shuffle_keys
  rw [shuffle_loop_length]
  have : toInt64 n ≤ (n : Int) := by
    unfold toInt64
    have := Nat.mod_le n (2 ^ 64)
    split <;> omega
  simp only [List.length_singleton]
  omega

theorem cursorInv_append (L : Nat) (hL : 1 ≤ L) (hL64 : L < U64) (m m1 : ReplayMemory α)
    (arr : List α) (hinv : CursorInv L m) (h : append m arr = some m1) : CursorInv L m1 := by
  obtain ⟨hlen, hdl, hdim, hcont, hpos, hsl, hnone⟩ := hinv
  unfold append at h
  split at h
  · simp only [Option.some.injEq] at h
    subst h
    refine ⟨hlen, by simp [hdl], ?_, ?_, ?_, ?_, hnone⟩
    · show (if m.dimension = m.length then m.dimension else (m.dimension + 1) % U64) ≤ L
      split
      · exact hdim
      · rw [Nat.mod_eq_of_lt (by omega)]; omega
    · show (if m.cont = usub m.length 1 then 0 else (m.cont + 1) % U64) < L
      rw [hlen, usub_one hL hL64]
      split
      · omega
      · rw [Nat.mod_eq_of_lt (by omega)]; omega
    · show m.position ≤ (if m.dimension = m.length then m.dimension else (m.dimension + 1) % U64)
      split
      · exact hpos
      · rw [Nat.mod_eq_of_lt (by omega)]; omega
    · intro sl hs
      have := hsl sl hs
      show sl.length ≤ (if m.dimension = m.length then m.dimension else (m.dimension + 1) % U64)
      split
      · exact this
      · rw [Nat.mod_eq_of_lt (by omega)]; omega
  · simp at h

theorem cursorInv_shuffle (L : Nat) (m m1 : ReplayMemory α) (keys : Nat → Nat)
    (hinv : CursorInv L m) (h : shuffle m keys = some m1) : CursorInv L m1 := by
  obtain ⟨hlen, hdl, hdim, hcont, hpos, -, -⟩ := hinv
  unfold shuffle at h
  split at h
  · simp at h
  · next hne =>
    simp only [Option.some.injEq] at h
    subst h
    refine ⟨hlen, hdl, hdim, hcont, hpos, ?_, by intro hn; simp at hn⟩
    intro sl hs
    simp only [Option.some.injEq] at hs
    subst hs
    exact shuffle_keys_length_le keys m.dimension (by omega)

theorem cursorInv_batch_some (L : Nat) (hL64 : L < U64) (m m1 : ReplayMemory α) (sl0 : List Nat)
    (bsize : Nat) (keys : Nat → Nat) (rows : List (List α)) (hinv : CursorInv L m)
    (hsl0 : m.shuffle_list = some sl0) (h : batch m bsize keys = some (rows, m1)) :
    CursorInv L m1 := by
  obtain ⟨hlen, hdl, hdim, hcont, hpos, hsl, -⟩ := hinv
  have hsl0len := hsl sl0 hsl0
  have hprep : batch_prepare m keys = some m := by simp [batch_prepare, hsl0]
  simp only [batch, hprep, Option.some_bind] at h
  cases hs : batch_slots m bsize keys with
  | none => simp [hs] at h
  | some slots =>
    have hbp : batch_position m bsize ≤ m.dimension := by
      simp only [batch_slots, hprep, Option.some_bind, hsl0] at hs
      split at hs
      · simp at hs
      · next hneg =>
        have h0 : 0 ≤ batch_rest m.position bsize m.dimension := by omega
        have h1 : batch_rest m.position bsize m.dimension < 2 ^ 31 :=
          toInt32_lt (if (m.position + bsize) % U64 ≤ usub m.dimension 1 then bsize
            else usub m.dimension m.position)
        rw [readAt_range'] at hs
        split at hs
        · next hc =>
          rw [ofInt_toNat h0 h1] at hc
          have hr : (batch_rest m.position bsize m.dimension).toNat < 2 ^ 31 := by omega
          have hbpdef : batch_position m bsize =
              (m.position + (batch_rest m.position bsize m.dimension).toNat) % U64 := by
            unfold batch_position; rw [ofInt_toNat h0 h1]
          by_cases hwrap : m.position + (batch_rest m.position bsize m.dimension).toNat < U64
          · rw [hbpdef, Nat.mod_eq_of_lt hwrap] at hc ⊢
            rw [usub_of_le (by omega) hwrap] at hc
            omega
          · rw [hbpdef]
            have : (m.position + (batch_rest m.position bsize m.dimension).toNat) % U64 =
                m.position + (batch_rest m.position bsize m.dimension).toNat - U64 := by
              rw [Nat.mod_eq_sub_mod (by omega), Nat.mod_eq_of_lt (by unfold U64 at *; omega)]
            rw [this]
            unfold U64 at *
            omega
        · simp at hs
    simp only [hs, Option.some_bind] at h
    cases hr : copyRows m.data m.width slots with
    | none => simp [hr] at h
    | some rws =>
      simp only [hr, Option.some_bind, Option.some.injEq, Prod.mk.injEq] at h
      obtain ⟨-, hm1⟩ := h
      subst hm1
      split
      · exact ⟨hlen, hdl, hdim, hcont, Nat.zero_le _, by intro sl hs1; simp at hs1,
          fun _ => rfl⟩
      · exact ⟨hlen, hdl, hdim, hcont, hbp, hsl, by intro hn; rw [hsl0] at hn; simp at hn⟩

theorem cursorInv_batch (L : Nat) (hL64 : L < U64) (m m1 : ReplayMemory α)
    (bsize : Nat) (keys : Nat → Nat) (rows : List (List α)) (hinv : CursorInv L m)
    (h : batch m bsize keys = some (rows, m1)) : CursorInv L m1 := by
  cases hsl : m.shuffle_list with
  | some sl0 => exact cursorInv_batch_some L hL64 m m1 sl0 bsize keys rows hinv hsl h
  | none =>
    have hd : 1 ≤ m.dimension := by
      by_contra hlt
      have h0 : m.dimension = 0 := by omega
      simp [batch, batch_prepare, hsl, shuffle, h0] at h
    obtain ⟨hsh, hb, -⟩ := batch_fresh m bsize keys hsl hd
    rw [hb] at h
    exact cursorInv_batch_some L hL64 _ m1 _ bsize keys rows
      (cursorInv_shuffle L m _ keys hinv hsh) rfl h

theorem cursorInv_reachable (L w : Nat) (hL : 1 ≤ L) (hL64 : L < U64) (m : ReplayMemory α)
    (hr : Reachable L w m) : CursorInv L m := by
  induction hr with
  | init =>
    exact ⟨rfl, by simp [init], Nat.zero_le _, hL, Nat.le_refl _,
      by intro sl h; simp [init] at h, fun _ => rfl⟩
  | call op _ hv hstep ih =>
    cases op with
    | append arr => exact cursorInv_append L hL hL64 _ _ arr ih hstep
    | len =>
      simp only [step, Option.some.injEq] at hstep
      rw [← hstep]; exact ih
    | shuffle keys => exact cursorInv_shuffle L _ _ keys ih hstep
    | batch bsize keys =>
      simp only [step, Option.map_eq_some'] at hstep
      obtain ⟨⟨rows, m2⟩, hb, he⟩ := hstep
      simp only at he
      subst he
      exact cursorInv_batch L hL64 _ _ bsize keys rows ih hb

/-- In a reachable state without a permutation the read cursor is 0. -/
theorem reachable_fresh_position (L w : Nat) (hL : 1 ≤ L) (hL64 : L < U64) (m : ReplayMemory α)
    (hr : Reachable L w m) (hnone : m.shuffle_list = none) : m.position = 0 :=
  (cursorInv_reachable L w hL hL64 m hr).2.2.2.2.2.2 hnone

/-- The bounds on the cursors along calls with a defined result.  For every capacity
`length ≥ 1` (an `unsigned long`), every state of `Reachable` (construction with the null
pointer, then `append`, `len`, `shuffle` and `batch` calls of which each has a defined
result, so that no `shuffle` or `batch` call is made on an empty buffer) satisfies
`dimension ≤ length`, `cont < length` and `position ≤ dimension`; `len()` returns `dimension`
and leaves the state as it is. -/
theorem reachable_bounds (L w : Nat) (hL : 1 ≤ L) (hL64 : L < U64) (m : ReplayMemory α)
    (hr : Reachable L w m) :
    m.length = L ∧ 0 ≤ m.dimension ∧ m.dimension ≤ m.length ∧ 0 ≤ m.cont ∧ m.cont < m.length ∧
      0 ≤ m.position ∧ m.position ≤ m.dimension ∧ len m = m.dimension ∧
      step m Op.len = some m := by
  obtain ⟨hlen, -, hdim, hcont, hpos, -, -⟩ := cursorInv_reachable L w hL hL64 m hr
  exact ⟨hlen, Nat.zero_le _, by omega, Nat.zero_le _, by omega, Nat.zero_le _, hpos, rfl, rfl⟩

/-- C8 (short last chunk and pass boundary).  On a well-formed buffer with 10 records and no
current permutation, three consecutive `batch(4)` calls return blocks of 4, 4 and 2 rows, and
the third leaves no permutation and `position = 0`.  In general, a `batch` call whose
`position+=rest` makes `position` equal to `dimension` discards the permutation and resets
`position` to 0, and a `batch` call made without a permutation is a `shuffle` call followed
by the copy of the rows. -/
theorem batch_pass_boundary :
    (∀ (m : ReplayMemory α) (k1 k2 k3 : Nat → Nat), WellFormed m → m.dimension = 10 →
      m.shuffle_list = none → m.position = 0 →
      ∃ b1 m1 b2 m2 b3 m3, batch m 4 k1 = some (b1, m1) ∧ batch m1 4 k2 = some (b2, m2) ∧
        batch m2 4 k3 = some (b3, m3) ∧ b1.length = 4 ∧ b2.length = 4 ∧ b3.length = 2 ∧
        m3.shuffle_list = none ∧ m3.position = 0) ∧
    (∀ (m m0 m1 : ReplayMemory α) (bsize : Nat) (keys : Nat → Nat) (rows : List (List α)),
      batch_prepare m keys = some m0 → batch m bsize keys = some (rows, m1) →
      batch_position m0 bsize = m0.dimension → m1.shuffle_list = none ∧ m1.position = 0) ∧
    (∀ (m : ReplayMemory α) (bsize : Nat) (keys : Nat → Nat), m.shuffle_list = none →
      batch m bsize keys = (shuffle m keys).bind (fun m0 => batch m0 bsize keys)) := by
  refine ⟨?_, ?_, ?_⟩
  · intro m k1 k2 k3 hwf hd hsl hpos
    obtain ⟨b1, m1, hb1, hwf1, hps1, hd1, hl1, hp1, -⟩ :=
      batch_total m 4 k1 hwf (by omega) (Or.inl ⟨hsl, hpos⟩) (by norm_num)
    rw [hd, hpos] at hl1 hp1
    norm_num at hl1 hp1
    obtain ⟨b2, m2, hb2, hwf2, hps2, hd2, hl2, hp2, -⟩ :=
      batch_total m1 4 k2 hwf1 (by omega) hps1 (by norm_num)
    rw [hd1, hd, hp1] at hl2 hp2
    norm_num at hl2 hp2
    obtain ⟨b3, m3, hb3, -, -, -, hl3, hp3, hs3⟩ :=
      batch_total m2 4 k3 hwf2 (by omega) hps2 (by norm_num)
    rw [hd2, hd1, hd, hp2] at hl3 hp3 hs3
    norm_num at hl3 hp3 hs3
    exact ⟨b1, m1, b2, m2, b3, m3, hb1, hb2, hb3, hl1, hl2, hl3, hs3, hp3⟩
  · intro m m0 m1 bsize keys rows hprep hb hdone
    simp only [batch, hprep, Option.some_bind] at hb
    cases hs : batch_slots m bsize keys with
    | none => simp [hs] at hb
    | some slots =>
      cases hr : copyRows m0.data m0.width slots with
      | none => simp [hs, hr] at hb
      | some rws =>
        simp only [hs, hr, Option.some_bind, Option.some.injEq, Prod.mk.injEq, if_pos hdone] at hb
        rw [← hb.2]
        exact ⟨rfl, rfl⟩
  · intro m bsize keys hsl
    by_cases hd : m.dimension = 0
    · simp [batch, batch_prepare, hsl, shuffle, hd]
    · obtain ⟨hsh, hb, -⟩ := batch_fresh m bsize keys hsl (by omega)
      rw [hsh, Option.some_bind, hb]

/-! ## Sample runs -/

theorem reachable_sample_two : Reachable 3 1 sample_two :=
  Reachable.call (Op.append [11])
    (Reachable.call (Op.append [10]) Reachable.init trivial
      (rfl : step (init 3 1 none) (Op.append [10]) = some
        { data := [[10], [], []], shuffle_list := none, length := 3, width := 1,
          cont := 1, dimension := 1, position := 0 }))
    trivial rfl

theorem reachable_sample_full : Reachable 3 1 sample_full :=
  Reachable.call (Op.append [12]) reachable_sample_two trivial rfl

theorem reachable_sample_pass : Reachable 3 1 sample_pass :=
  Reachable.call (Op.batch 1 sample_keys) reachable_sample_full
    (show (1 : Nat) < U64 by decide) rfl

theorem reachable_sample_two_pass : Reachable 3 1 sample_two_pass :=
  Reachable.call (Op.batch 1 sample_keys) reachable_sample_two
    (show (1 : Nat) < U64 by decide) rfl

theorem wellFormed_sample_full : WellFormed sample_full := ⟨by decide, by decide, by decide⟩

theorem wellFormed_sample_ten : WellFormed sample_ten := ⟨by decide, by decide, by decide⟩

/-- Instance of `shuffle_permutation`: three records, keys `0, 1, 2`. -/
theorem shuffle_permutation_witness :
    ∃ (m1 : ReplayMemory Nat) (sl : List Nat), shuffle sample_full id = some m1 ∧
      m1.shuffle_list = some sl ∧ List.Perm sl (List.range sample_full.dimension) ∧
      sl.length = sample_full.dimension ∧ ∀ i, i < sample_full.dimension → sl.count i = 1 :=
  shuffle_permutation sample_full id (by decide) (by decide)

/-- Instance of `pass_completeness`: three records read by `batch(2)`, `batch(2)`. -/
theorem pass_completeness_witness :
    (∃ slots, batchAll_slots sample_full [(2, sample_keys), (2, sample_keys)] = some slots ∧
      List.Perm slots (List.range sample_full.dimension) ∧
      (∀ i, i < sample_full.dimension → slots.count i = 1) ∧
      ([[[10], [11]], [[12]]] : List (List (List Nat))).flatten =
        slots.map (fun s => (sample_full.data.getD s []).take sample_full.width)) ∧
    ∃ res, batchAll sample_full [(2, sample_keys), (2, sample_keys)] = some res :=
  ⟨(pass_completeness sample_full [(2, sample_keys), (2, sample_keys)] (by decide) (by decide)
      rfl rfl).1 [[[10], [11]], [[12]]] sample_full rfl rfl,
    (pass_completeness sample_full [(2, sample_keys), (2, sample_keys)] (by decide) (by decide)
      rfl rfl).2 wellFormed_sample_full (by decide)⟩

/-- C4, evaluated.  In the reachable state `sample_pass` (3 records, `position = 1`, a
permutation present) the call `batch(2^64 - 1)` computes `position + bsize = 0` modulo `2^64`,
takes the branch `rest = bsize` and converts it to the `int` `-1`, where
`min(bsize, dimension - position) = 2`; no block is returned. -/
theorem batch_rest_wraparound :
    Reachable 3 1 sample_pass ∧ 1 ≤ sample_pass.dimension ∧
      sample_pass.position < sample_pass.dimension ∧ 0 < 2 ^ 64 - 1 ∧ 2 ^ 64 - 1 < U64 ∧
      (sample_pass.position + (2 ^ 64 - 1)) % U64 = 0 ∧
      batch_rest sample_pass.position (2 ^ 64 - 1) sample_pass.dimension = -1 ∧
      min (2 ^ 64 - 1) (sample_pass.dimension - sample_pass.position) = 2 ∧
      batch sample_pass (2 ^ 64 - 1) sample_keys = none :=
  ⟨reachable_sample_pass, by decide, by decide, by decide, by decide, by decide, by decide,
    by decide, rfl⟩

/-- C5, evaluated.  In the reachable state `sample_pass` (a pass in progress, `position = 1`
of 3) `shuffle()` installs a new permutation and leaves `position = 1`; the records, size
and write cursor are unchanged.  The next `batch(3)` then returns the two rows of slots 1
and 0 and ends the pass: slot 2 is not delivered. -/
theorem shuffle_keeps_position :
    Reachable 3 1 sample_pass ∧ sample_pass.position = 1 ∧
      shuffle sample_pass id = some sample_reshuffled ∧
      sample_reshuffled.position = 1 ∧ sample_reshuffled.data = sample_pass.data ∧
      sample_reshuffled.dimension = sample_pass.dimension ∧
      sample_reshuffled.cont = sample_pass.cont ∧
      batch_slots sample_reshuffled 3 sample_keys = some [1, 0] ∧
      batch sample_reshuffled 3 sample_keys = some ([[11], [10]], sample_full) :=
  ⟨reachable_sample_pass, rfl, rfl, rfl, rfl, rfl, rfl, rfl, rfl⟩

/-- C6, evaluated.  In the reachable state `sample_two_pass` (2 records in a buffer of
capacity 3, a pass in progress) `append` raises `dimension` to 3 and leaves the permutation
`[0, 1]` of 2 entries; the next `batch(2)` reads `shuffle_list[2]`, outside the array. -/
theorem append_during_pass :
    Reachable 3 1 sample_two_pass ∧
      sample_two_pass.shuffle_list = some [0, 1] ∧ sample_two_pass.dimension = 2 ∧
      append sample_two_pass [12] = some sample_grown ∧
      sample_grown.shuffle_list = some [0, 1] ∧ sample_grown.dimension = 3 ∧
      batch_rest sample_grown.position 2 sample_grown.dimension = 2 ∧
      batch sample_grown 2 sample_keys = none :=
  ⟨reachable_sample_two_pass, rfl, rfl, rfl, rfl, rfl, by decide, rfl⟩

/-- Instance of `reachable_bounds`: the state `sample_pass`. -/
theorem reachable_bounds_witness :
    sample_pass.length = 3 ∧ 0 ≤ sample_pass.dimension ∧
      sample_pass.dimension ≤ sample_pass.length ∧ 0 ≤ sample_pass.cont ∧
      sample_pass.cont < sample_pass.length ∧ 0 ≤ sample_pass.position ∧
      sample_pass.position ≤ sample_pass.dimension ∧ len sample_pass = sample_pass.dimension ∧
      step sample_pass Op.len = some sample_pass :=
  reachable_bounds 3 1 (by decide) (by decide) sample_pass reachable_sample_pass

/-- Instance of `batch_pass_boundary`: three `batch(4)` calls on `sample_ten`. -/
theorem batch_pass_boundary_witness :
    ∃ b1 m1 b2 m2 b3 m3, batch sample_ten 4 sample_keys = some (b1, m1) ∧
      batch m1 4 sample_keys = some (b2, m2) ∧ batch m2 4 sample_keys = some (b3, m3) ∧
      b1.length = 4 ∧ b2.length = 4 ∧ b3.length = 2 ∧
      m3.shuffle_list = none ∧ m3.position = 0 :=
  batch_pass_boundary.1 sample_ten sample_keys sample_keys sample_keys wellFormed_sample_ten
    rfl rfl rfl

/-! ## shuffle and batch on an empty buffer, batch of size 0 -/

/-- C16, evaluated.  On the freshly constructed `ReplayMemory(3, 1)` (`dimension = 0`, the
pointer `shuffle_list` null) the embedding gives `shuffle()` and `batch(1)` no result: this
`none` stands for the two stores `random_numbers[0]=...` and `shuffle_list[0]=0` into arrays
of length 0, not for an error raised by the code, which has no test of `dimension == 0`. -/
theorem shuffle_empty :
    Reachable 3 1 (init 3 1 none : ReplayMemory Nat) ∧
      (init 3 1 none : ReplayMemory Nat).dimension = 0 ∧
      shuffle (init 3 1 none : ReplayMemory Nat) sample_keys = none ∧
      batch (init 3 1 none : ReplayMemory Nat) 1 sample_keys = none :=
  ⟨Reachable.init, rfl, rfl, rfl⟩

/-- C7, evaluated.  On the freshly constructed `ReplayMemory(3, 1)` (`dimension = 0`,
`position = 0`, whatever value `p` the construction left in the pointer `shuffle_list`) the
call `batch(1)` computes `dimension - 1 = 2^64 - 1`, so the test
`position + bsize <= dimension - 1` holds and `rest = 1`; `position += rest` gives
`position = 1`, which differs from `dimension = 0`, so `position` is not reset: the call
assigns the read cursor 1 while the size is 0, and `position ≤ dimension` does not hold.
`batch` has no test of `dimension == 0`; with the null pointer it first calls `shuffle()` on
the empty buffer, whose two stores into cell 0 fall outside the arrays, and for that reason
the call has no result in the embedding. -/
theorem batch_empty_cursor (p : Option (List Nat)) :
    Reachable 3 1 (init 3 1 none : ReplayMemory Nat) ∧
      (init 3 1 p : ReplayMemory Nat).dimension = 0 ∧
      (init 3 1 p : ReplayMemory Nat).position = 0 ∧
      usub (init 3 1 p : ReplayMemory Nat).dimension 1 = 2 ^ 64 - 1 ∧
      ((init 3 1 p : ReplayMemory Nat).position + 1) % U64 ≤
        usub (init 3 1 p : ReplayMemory Nat).dimension 1 ∧
      batch_rest (init 3 1 p : ReplayMemory Nat).position 1
        (init 3 1 p : ReplayMemory Nat).dimension = 1 ∧
      batch_position (init 3 1 p : ReplayMemory Nat) 1 = 1 ∧
      batch_position (init 3 1 p : ReplayMemory Nat) 1 ≠
        (init 3 1 p : ReplayMemory Nat).dimension ∧
      ¬ batch_position (init 3 1 p : ReplayMemory Nat) 1 ≤
        (init 3 1 p : ReplayMemory Nat).dimension ∧
      batch (init 3 1 none : ReplayMemory Nat) 1 sample_keys = none :=
  ⟨Reachable.init, rfl, rfl,
    (show usub 0 1 = 2 ^ 64 - 1 by decide),
    (show (0 + 1) % U64 ≤ usub 0 1 by decide),
    (show batch_rest 0 1 0 = 1 by decide),
    (show (0 + ofInt (batch_rest 0 1 0)) % U64 = 1 by decide),
    (show (0 + ofInt (batch_rest 0 1 0)) % U64 ≠ 0 by decide),
    (show ¬ (0 + ofInt (batch_rest 0 1 0)) % U64 ≤ 0 by decide),
    rfl⟩

/-- C17, refuted as stated.  On the reachable state `sample_full` (3 records, no
permutation) `batch(0)` returns a block, the empty one, and installs the permutation
`[0, 1, 2]`: a pass is started.  On the state `sample_pass` (a pass in progress) `batch(0)`
returns the empty block and leaves the state. -/
theorem zero_batch_returns :
    Reachable 3 1 sample_full ∧ sample_full.shuffle_list = none ∧
      batch sample_full 0 sample_keys =
        some ([], { sample_full with shuffle_list := some [0, 1, 2] }) ∧
      (batch sample_full 0 sample_keys).isSome = true ∧
      batch sample_pass 0 sample_keys = some ([], sample_pass) :=
  ⟨reachable_sample_full, rfl, rfl, rfl, rfl⟩

/-- The result of `batch(0)` during a pass. -/
theorem batch_of_zero (m : ReplayMemory α) (sl : List Nat) (keys : Nat → Nat)
    (hsl : m.shuffle_list = some sl) (hpos : m.position < m.dimension)
    (hdim : m.dimension < 2 ^ 63) : batch m 0 keys = some ([], m) := by
  have hrest : batch_rest m.position 0 m.dimension = 0 := by
    rw [batch_rest_eq hpos (by unfold U64; omega) (by unfold U64; omega)]
    simp [toInt32]
  have hprep : batch_prepare m keys = some m := by simp [batch_prepare, hsl]
  have hs := batch_slots_some m sl 0 keys hsl (le_of_lt hpos) hdim
  have hbp := batch_position_some m 0 (le_of_lt hpos) hdim (by rw [hrest])
  rw [hrest] at hs hbp
  simp only [Int.toNat_zero, lt_self_iff_false, if_false, true_or, if_true, List.take_zero,
    Nat.add_zero] at hs hbp
  simp only [batch, hprep, hs, Option.some_bind, hbp, copyRows, List.not_mem_nil,
    false_implies, implies_true, if_true, List.map_nil, if_neg (Nat.ne_of_lt hpos)]

/-- C17, amended.  `batch(0)` raises no error.  On a buffer with `1 ≤ dimension`
(`dimension` below `2^63`) and `position < dimension` it returns the empty block and leaves
`position`, `dimension`, the write cursor and the stored records as they were; a permutation
that is present is left as it is, and when none is present the call first runs `shuffle`,
so the permutation of a new pass is installed. -/
theorem batch_zero (m : ReplayMemory α) (keys : Nat → Nat) (hpos : m.position < m.dimension)
    (hdim : m.dimension < 2 ^ 63) :
    (∀ sl, m.shuffle_list = some sl → batch m 0 keys = some ([], m)) ∧
    (m.shuffle_list = none →
      batch m 0 keys = some ([], { m with shuffle_list := some (shuffle_keys keys m.dimension) })) ∧
    ∃ m1, batch m 0 keys = some ([], m1) ∧ m1.position = m.position ∧
      m1.dimension = m.dimension ∧ m1.cont = m.cont ∧ m1.data = m.data ∧
      m1.shuffle_list ≠ none := by
  have hA : ∀ sl, m.shuffle_list = some sl → batch m 0 keys = some ([], m) :=
    fun sl hsl => batch_of_zero m sl keys hsl hpos hdim
  have hB : m.shuffle_list = none →
      batch m 0 keys =
        some ([], { m with shuffle_list := some (shuffle_keys keys m.dimension) }) := by
    intro hnone
    obtain ⟨-, hb, -⟩ := batch_fresh m 0 keys hnone (by omega)
    rw [hb]
    exact batch_of_zero _ (shuffle_keys keys m.dimension) keys rfl hpos hdim
  refine ⟨hA, hB, ?_⟩
  cases hsl : m.shuffle_list with
  | none =>
    exact ⟨_, hB hsl, rfl, rfl, rfl, rfl, by simp⟩
  | some sl =>
    exact ⟨m, hA sl hsl, rfl, rfl, rfl, rfl, by rw [hsl]; simp⟩

/-- Instance of `batch_zero`: the state `sample_full`. -/
theorem batch_zero_witness :
    ∃ m1, batch sample_full 0 sample_keys = some ([], m1) ∧
      m1.position = sample_full.position ∧ m1.dimension = sample_full.dimension ∧
      m1.cont = sample_full.cont ∧ m1.data = sample_full.data ∧ m1.shuffle_list ≠ none :=
  (batch_zero sample_full sample_keys (by decide) (by decide)).2.2

/-! ## shuffle as a stable sort by descending key -/

theorem swapAt_cons_succ (a : Nat) (t : List Nat) (i j : Nat) :
    swapAt (a :: t) (i + 1) (j + 1) = a :: swapAt t i j := by
  simp [swapAt]

theorem swapAt_append_adjacent (A : List Nat) (y x : Nat) (B : List Nat) :
    swapAt (A ++ y :: x :: B) A.length (A.length + 1) = A ++ x :: y :: B := by
  induction A with
  | nil => simp [swapAt]
  | cons a t ih =>
    simp only [List.cons_append, List.length_cons]
    rw [swapAt_cons_succ, ih]

theorem getD_append_at (A : List Nat) (y : Nat) (B : List Nat) :
    (A ++ y :: B).getD A.length 0 = y := by
  induction A with
  | nil => simp
  | cons a t ih => simpa using ih

theorem getD_append_at_succ (A : List Nat) (y x : Nat) (B : List Nat) :
    (A ++ y :: x :: B).getD (A.length + 1) 0 = x := by
  induction A with
  | nil => simp
  | cons a t ih => simpa using ih

/-- The inner loop moves the new index to the left past the indices with a smaller key and
stops at the first index whose key is not smaller. -/
theorem shuffle_inner_insert (keys : Nat → Nat) (A : List Nat) (x : Nat) (B : List Nat) :
    ∃ A1 A2, A = A1 ++ A2 ∧
      shuffle_inner ((A ++ x :: B).map keys) (A ++ x :: B) A.length A.length =
        ((A1 ++ x :: (A2 ++ B)).map keys, A1 ++ x :: (A2 ++ B)) ∧
      (∀ b ∈ A2, keys b < keys x) ∧ (∀ a, A1.getLast? = some a → keys x ≤ keys a) := by
  induction A using List.reverseRecOn generalizing B with
  | nil =>
    exact ⟨[], [], rfl, by simp [shuffle_inner], by simp, by simp⟩
  | append_singleton A0 y ih =>
    have hl : (A0 ++ [y]).length = A0.length + 1 := by simp
    have hlist : A0 ++ [y] ++ x :: B = A0 ++ y :: x :: B := by simp
    have hmap : (A0 ++ y :: x :: B).map keys =
        A0.map keys ++ keys y :: keys x :: B.map keys := by simp
    have hml : (A0.map keys).length = A0.length := by simp
    rw [hl, hlist]
    unfold shuffle_inner
    have h1 : ((A0 ++ y :: x :: B).map keys).getD (A0.length + 1) 0 = keys x := by
      rw [hmap, ← hml]; exact getD_append_at_succ _ _ _ _
    have h0 : ((A0 ++ y :: x :: B).map keys).getD A0.length 0 = keys y := by
      rw [hmap, ← hml]; exact getD_append_at _ _ _
    rw [h1, h0]
    by_cases hgt : keys x > keys y
    · rw [if_pos hgt]
      have hs1 : swapAt ((A0 ++ y :: x :: B).map keys) A0.length (A0.length + 1) =
          (A0 ++ x :: (y :: B)).map keys := by
        rw [hmap]
        have := swapAt_append_adjacent (A0.map keys) (keys y) (keys x) (B.map keys)
        rw [hml] at this
        rw [this]; simp
      have hs2 : swapAt (A0 ++ y :: x :: B) A0.length (A0.length + 1) = A0 ++ x :: (y :: B) :=
        swapAt_append_adjacent A0 y x B
      rw [hs1, hs2]
      obtain ⟨A1, A2, hA, hres, hlt, hge⟩ := ih (y :: B)
      refine ⟨A1, A2 ++ [y], by rw [hA]; simp, ?_, ?_, hge⟩
      · rw [hres]; simp
      · intro b hb
        rcases List.mem_append.mp hb with hb | hb
        · exact hlt b hb
        · rw [List.mem_singleton.mp hb]; exact hgt
    · rw [if_neg hgt]
      refine ⟨A0 ++ [y], [], by simp, by simp, by simp, ?_⟩
      intro a ha
      simp at ha
      rw [← ha]; exact not_lt.mp hgt

theorem keyOrder_key_le {keys : Nat → Nat} {a b : Nat} (h : keyOrder keys a b) :
    keys b ≤ keys a := by
  rcases h with h | h
  · exact le_of_lt h
  · exact le_of_eq h.1

theorem keyOrder_antisymm (keys : Nat → Nat) (a b : Nat) (h1 : keyOrder keys a b)
    (h2 : keyOrder keys b a) : a = b := by
  unfold keyOrder at h1 h2
  omega

theorem shuffle_loop_sorted (keys : Nat → Nat) (k i : Nat) (st : List Nat × List Nat)
    (hmap : st.1 = st.2.map keys) (hperm : List.Perm st.2 (List.range i))
    (hsort : List.Pairwise (keyOrder keys) st.2) :
    List.Pairwise (keyOrder keys) (shuffle_loop keys k i st).2 := by
  induction k generalizing i st with
  | zero => simpa [shuffle_loop] using hsort
  | succ k ih =>
    unfold shuffle_loop
    have hlen : st.2.length = i := by simpa using hperm.length_eq
    obtain ⟨A1, A2, hA, hres, hlt, hge⟩ := shuffle_inner_insert keys st.2 i []
    have harg : (st.2 ++ [i]).map keys = st.1 ++ [keys i] := by rw [hmap]; simp
    rw [harg, hlen, List.append_nil] at hres
    have hperm1 : List.Perm (shuffle_inner (st.1 ++ [keys i]) (st.2 ++ [i]) i i).2
        (List.range (i + 1)) := by
      have h1 : List.Perm (st.2 ++ [i]) (List.range (i + 1)) := by
        rw [List.range_succ]; exact hperm.append_right [i]
      exact (shuffle_inner_perm i _ _ (by simp [hlen])).trans h1
    apply ih (i + 1) _ (by rw [hres]) hperm1
    rw [hres]
    show List.Pairwise (keyOrder keys) (A1 ++ i :: A2)
    rw [hA, List.pairwise_append] at hsort
    obtain ⟨hs1, hs2, hcross⟩ := hsort
    have hmemlt : ∀ a ∈ A1, a < i := by
      intro a ha
      have : a ∈ st.2 := by rw [hA]; exact List.mem_append_left _ ha
      exact List.mem_range.mp (hperm.mem_iff.mp this)
    have hA1 : ∀ a ∈ A1, keys i ≤ keys a := by
      intro a ha
      rcases List.eq_nil_or_concat A1 with hnil | ⟨L, l, hL⟩
      · rw [hnil] at ha; simp at ha
      · rw [List.concat_eq_append] at hL
        have hl : keys i ≤ keys l := hge l (by rw [hL]; simp)
        rw [hL] at ha hs1
        rcases List.mem_append.mp ha with ha1 | ha1
        · have := (List.pairwise_append.mp hs1).2.2 a ha1 l (by simp)
          exact le_trans hl (keyOrder_key_le this)
        · rw [List.mem_singleton.mp ha1]; exact hl
    rw [List.pairwise_append]
    refine ⟨hs1, ?_, ?_⟩
    · rw [List.pairwise_cons]
      exact ⟨fun b hb => Or.inl (hlt b hb), hs2⟩
    · intro a ha b hb
      rcases List.mem_cons.mp hb with hb | hb
      · rw [hb]
        have h1 := hA1 a ha
        have h2 := hmemlt a ha
        unfold keyOrder
        omega
      · exact hcross a ha b hb

/-- The list built by `shuffle` is sorted by descending key, equal keys by ascending
index. -/
theorem shuffle_keys_sorted (keys : Nat → Nat) (n : Nat) :
    List.Pairwise (keyOrder keys) (shuffle_keys keys n) := by
  unfold shuffle_keys
  exact shuffle_loop_sorted keys _ 1 ([keys 0], [0]) rfl (by simp [List.range_succ])
    (List.pairwise_singleton _ _)

/-- The list built by `shuffle` is the only rearrangement of `0, ..., n-1` in that order. -/
theorem shuffle_keys_eq_iff (keys : Nat → Nat) (n : Nat) (σ : List Nat) (h1 : 1 ≤ n)
    (h2 : n < 2 ^ 63) (hσ : List.Perm σ (List.range n)) :
    shuffle_keys keys n = σ ↔ List.Pairwise (keyOrder keys) σ := by
  constructor
  · intro h
    rw [← h]
    exact shuffle_keys_sorted keys n
  · intro h
    haveI : IsAntisymm Nat (keyOrder keys) := ⟨keyOrder_antisymm keys⟩
    exact List.eq_of_perm_of_sorted ((shuffle_keys_perm keys n h1 h2).trans hσ.symm)
      (shuffle_keys_sorted keys n) h

/-! ## Counting the key assignments behind an order -/

theorem drawsOf_val {K n : Nat} (ks : Fin n → Fin K) (i : Fin n) :
    drawsOf ks i.val = (ks i : Nat) := by
  unfold drawsOf
  rw [dif_pos i.isLt]

/-- With two indices `shuffle` builds `[1, 0]` when the second key is larger and `[0, 1]`
otherwise. -/
theorem shuffle_two {K : Nat} (ks : Fin 2 → Fin K) :
    (shuffle_keys (drawsOf ks) 2 = [1, 0] ↔ ks 0 < ks 1) ∧
      (shuffle_keys (drawsOf ks) 2 = [0, 1] ↔ ks 1 ≤ ks 0) := by
  have h0 : drawsOf ks 0 = (ks 0 : Nat) := drawsOf_val ks 0
  have h1 : drawsOf ks 1 = (ks 1 : Nat) := drawsOf_val ks 1
  constructor
  · rw [shuffle_keys_eq_iff _ 2 [1, 0] (by decide) (by decide) (by decide)]
    simp only [List.pairwise_cons, List.mem_singleton, forall_eq, List.not_mem_nil,
      false_implies, implies_true, List.Pairwise.nil, and_true, keyOrder, h0, h1, Fin.lt_def]
    omega
  · rw [shuffle_keys_eq_iff _ 2 [0, 1] (by decide) (by decide) (by decide)]
    simp only [List.pairwise_cons, List.mem_singleton, forall_eq, List.not_mem_nil,
      false_implies, implies_true, List.Pairwise.nil, and_true, keyOrder, h0, h1, Fin.le_def]
    omega

/-- With two indices and at least one key value, more key assignments give the order
`[0, 1]` than the order `[1, 0]`: equal keys leave the indices in place. -/
theorem shuffle_count_two_lt (K : Nat) (hK : 0 < K) :
    shuffle_count K 2 [1, 0] < shuffle_count K 2 [0, 1] := by
  unfold shuffle_count
  have hinj : Function.Injective (fun (ks : Fin 2 → Fin K) => fun i => ks (Fin.rev i)) := by
    intro a b hab
    funext i
    have := congrFun hab (Fin.rev i)
    simpa using this
  rw [← Finset.card_image_of_injective _ hinj]
  apply Finset.card_lt_card
  rw [Finset.ssubset_iff_of_subset]
  · refine ⟨fun _ => ⟨0, hK⟩, ?_, ?_⟩
    · simp only [Finset.mem_filter, Finset.mem_univ, true_and]
      exact (shuffle_two _).2.mpr (le_refl _)
    · simp only [Finset.mem_image, Finset.mem_filter, Finset.mem_univ, true_and, not_exists,
        not_and]
      intro ks hks heq
      have hlt := (shuffle_two ks).1.mp hks
      have e0 := congrFun heq 1
      have e1 := congrFun heq 0
      simp only [Fin.rev] at e0 e1
      have a0 : (ks 0 : Nat) = 0 := by
        have := congrArg Fin.val e0
        simpa using this
      have a1 : (ks 1 : Nat) = 0 := by
        have := congrArg Fin.val e1
        simpa using this
      rw [Fin.lt_def, a0, a1] at hlt
      exact absurd hlt (lt_irrefl 0)
  · intro g hg
    simp only [Finset.mem_image, Finset.mem_filter, Finset.mem_univ, true_and] at hg
    obtain ⟨ks, hks, rfl⟩ := hg
    simp only [Finset.mem_filter, Finset.mem_univ, true_and]
    have hlt := (shuffle_two ks).1.mp hks
    apply (shuffle_two _).2.mpr
    have r0 : Fin.rev (0 : Fin 2) = 1 := by decide
    have r1 : Fin.rev (1 : Fin 2) = 0 := by decide
    show ks (Fin.rev 1) ≤ ks (Fin.rev 0)
    rw [r0, r1]
    exact le_of_lt hlt

/-- C18, refuted as stated.  With `n = 2` indices and the key range of the generator,
`K = 2^32`, the two permutations of `[0, 2)` are not produced by the same number of key
assignments: `[0, 1]` is produced by more assignments than `[1, 0]`. -/
theorem shuffle_not_uniform :
    List.Perm [0, 1] (List.range 2) ∧ List.Perm [1, 0] (List.range 2) ∧
      shuffle_count (2 ^ 32) 2 [1, 0] < shuffle_count (2 ^ 32) 2 [0, 1] ∧
      shuffle_count (2 ^ 32) 2 [0, 1] ≠ shuffle_count (2 ^ 32) 2 [1, 0] :=
  ⟨by decide, by decide, shuffle_count_two_lt (2 ^ 32) (by norm_num),
    Nat.ne_of_gt (shuffle_count_two_lt (2 ^ 32) (by norm_num))⟩

/-- Among assignments of pairwise distinct keys, the assignments that give the order `σ`
correspond to the strictly decreasing assignments: read the keys along `σ`. -/
theorem shuffle_count_distinct_eq_anti (K n : Nat) (σ : List Nat) (h1 : 1 ≤ n)
    (h2 : n < 2 ^ 63) (hσ : List.Perm σ (List.range n)) :
    shuffle_count_distinct K n σ =
      ((Finset.univ : Finset (Fin n → Fin K)).filter
        (fun g => ∀ i j : Fin n, i < j → g j < g i)).card := by
  have hlen : σ.length = n := by simpa using hσ.length_eq
  have hnd : σ.Nodup := hσ.nodup_iff.mpr (List.nodup_range n)
  have hget : ∀ i, i < n → σ.getD i 0 ∈ σ := by
    intro i hi
    rw [List.getD_eq_getElem σ 0 (by omega)]
    exact List.getElem_mem _
  have hmem : ∀ i, i < n → σ.getD i 0 < n := fun i hi =>
    List.mem_range.mp (hσ.mem_iff.mp (hget i hi))
  have hinj : Function.Injective (fun i : Fin n => (⟨σ.getD i.val 0, hmem i.val i.isLt⟩ : Fin n)) := by
    intro i j hij
    have hv : σ.getD i.val 0 = σ.getD j.val 0 := congrArg Fin.val hij
    have hi : i.val < σ.length := by rw [hlen]; exact i.isLt
    have hj : j.val < σ.length := by rw [hlen]; exact j.isLt
    rw [List.getD_eq_getElem σ 0 hi, List.getD_eq_getElem σ 0 hj] at hv
    exact Fin.ext (hnd.getElem_inj_iff.mp hv)
  have hbij := Finite.injective_iff_bijective.mp hinj
  unfold shuffle_count_distinct
  apply Finset.card_bijective _ hbij.comp_right
  intro ks
  simp only [Finset.mem_filter, Finset.mem_univ, true_and, Function.comp]
  have hkey : ∀ i : Fin n, drawsOf ks (σ.getD i.val 0) =
      ((ks ⟨σ.getD i.val 0, hmem i.val i.isLt⟩ : Fin K) : Nat) := by
    intro i
    exact drawsOf_val ks ⟨σ.getD i.val 0, hmem i.val i.isLt⟩
  rw [shuffle_keys_eq_iff _ n σ h1 h2 hσ, List.pairwise_iff_getElem]
  constructor
  · rintro ⟨hks, hpw⟩ i j hij
    have hi : i.val < σ.length := by rw [hlen]; exact i.isLt
    have hj : j.val < σ.length := by rw [hlen]; exact j.isLt
    have := hpw i.val j.val hi hj hij
    rw [← List.getD_eq_getElem σ 0 hi, ← List.getD_eq_getElem σ 0 hj] at this
    unfold keyOrder at this
    rw [hkey i, hkey j] at this
    rcases this with hlt | ⟨heq, -⟩
    · exact hlt
    · have e1 := hks (Fin.ext heq)
      have e2 := hinj e1
      rw [e2] at hij
      exact absurd hij (lt_irrefl _)
  · intro hanti
    constructor
    · intro a b hab
      obtain ⟨i, rfl⟩ := hbij.2 a
      obtain ⟨j, rfl⟩ := hbij.2 b
      rcases lt_trichotomy i j with hij | hij | hij
      · have := hanti i j hij
        simp only at hab
        rw [hab] at this
        exact absurd this (lt_irrefl _)
      · rw [hij]
      · have := hanti j i hij
        simp only at hab
        rw [hab] at this
        exact absurd this (lt_irrefl _)
    · intro i j hi hj hij
      have hi' : i < n := by omega
      have hj' : j < n := by omega
      have := hanti ⟨i, hi'⟩ ⟨j, hj'⟩ hij
      rw [← List.getD_eq_getElem σ 0 hi, ← List.getD_eq_getElem σ 0 hj]
      left
      rw [hkey ⟨i, hi'⟩, hkey ⟨j, hj'⟩]
      exact this

/-- C18, amended.  For every `n ≥ 1` (below `2^63`) and every key range `K`: the list built
by `shuffle` is the rearrangement of `0, ..., n-1` sorted by descending key, equal keys by
ascending index; any two permutations of `[0, n)` are produced by the same number of
assignments of pairwise distinct keys; and over all assignments the counts differ, already
for `n = 2`, where `[0, 1]` is produced by more assignments than `[1, 0]`. -/
theorem shuffle_uniform_distinct (K n : Nat) (σ τ : List Nat) (h1 : 1 ≤ n) (h2 : n < 2 ^ 63)
    (hσ : List.Perm σ (List.range n)) (hτ : List.Perm τ (List.range n)) :
    shuffle_count_distinct K n σ = shuffle_count_distinct K n τ ∧
    (∀ keys : Nat → Nat, List.Perm (shuffle_keys keys n) (List.range n) ∧
      List.Pairwise (keyOrder keys) (shuffle_keys keys n)) ∧
    (0 < K → shuffle_count K 2 [1, 0] < shuffle_count K 2 [0, 1]) :=
  ⟨by rw [shuffle_count_distinct_eq_anti K n σ h1 h2 hσ,
      shuffle_count_distinct_eq_anti K n τ h1 h2 hτ],
    fun keys => ⟨shuffle_keys_perm keys n h1 h2, shuffle_keys_sorted keys n⟩,
    shuffle_count_two_lt K⟩

/-- Instance of `shuffle_uniform_distinct`: three key values, two indices. -/
theorem shuffle_uniform_distinct_witness :
    shuffle_count_distinct 3 2 [0, 1] = shuffle_count_distinct 3 2 [1, 0] :=
  (shuffle_uniform_distinct 3 2 [0, 1] [1, 0] (by decide) (by decide) (by decide)
    (by decide)).1

end ReplayMemory

namespace Rocket

/-! ## Rocket: the action dispatch -/

theorem apply_action_frame {G : Type} (s : Rocket G) (action : Int) :
    (apply_action s action).x = s.x ∧ (apply_action s action).y = s.y ∧
      (apply_action s action).phi = s.phi ∧ (apply_action s action).u = s.u ∧
      (apply_action s action).v = s.v ∧ (apply_action s action).w = s.w ∧
      (apply_action s action).theta = s.theta ∧ (apply_action s action).t = s.t ∧
      (apply_action s action).flag = s.flag := by
  unfold apply_action
  split_ifs <;> exact ⟨rfl, rfl, rfl, rfl, rfl, rfl, rfl, rfl, rfl⟩

variable {F : Type} [LinearOrderedField F]

/-! ## Rocket: reset -/

/-- The method `reset` does not assign `ignition` and `rotation`. -/
theorem reset_control (T : Trig F) (s : Rocket F) (r0 r1 r2 r3 r4 r5 : F) :
    (reset T s r0 r1 r2 r3 r4 r5).1.ignition = s.ignition ∧
      (reset T s r0 r1 r2 r3 r4 r5).1.rotation = s.rotation ∧
      (reset T s r0 r1 r2 r3 r4 r5).2[7]? = some (s.ignition : F) ∧
      (reset T s r0 r1 r2 r3 r4 r5).2[8]? = some (s.rotation : F) :=
  ⟨rfl, rfl, rfl, rfl⟩

/-- C9, evaluated.  The action dispatch of `step(1)` and `step(3)` on the constructor state
gives ignition on and rotation left (`sample_on`); `reset()` on that state zeroes `w` and `t`
and sets the flag, and leaves `ignition = 1` and `rotation = -1`, which it returns as
elements 7 and 8. -/
theorem reset_keeps_control :
    apply_action (apply_action (zero : Rocket ℚ) 1) 3 = sample_on ∧
      (reset sample_trig sample_on 0 0 0 0 0 0).1.ignition = 1 ∧
      (reset sample_trig sample_on 0 0 0 0 0 0).1.rotation = -1 ∧
      (reset sample_trig sample_on 0 0 0 0 0 0).1.w = 0 ∧
      (reset sample_trig sample_on 0 0 0 0 0 0).1.t = 0 ∧
      (reset sample_trig sample_on 0 0 0 0 0 0).1.flag = true ∧
      (reset sample_trig sample_on 0 0 0 0 0 0).2[5]? = some (0 : ℚ) ∧
      (reset sample_trig sample_on 0 0 0 0 0 0).2[7]? = some (1 : ℚ) ∧
      (reset sample_trig sample_on 0 0 0 0 0 0).2[8]? = some (-1 : ℚ) := by
  refine ⟨rfl, rfl, rfl, rfl, rfl, rfl, rfl, ?_, ?_⟩
  · simp [reset, sample_on]
  · simp [reset, sample_on]

/-! ## Rocket: step outside the bounds -/

/-- The array returned by `step` starts with the physical fields of the new state and ends
with its flag. -/
theorem step_out (T : Trig F) (s : Rocket F) (action : Int) :
    (step T s action).2.take 7 =
      [(step T s action).1.x, (step T s action).1.y, (step T s action).1.phi,
        (step T s action).1.u, (step T s action).1.v, (step T s action).1.w,
        (step T s action).1.theta] ∧
      (step T s action).2[10]? = some (flagValue (step T s action).1.flag) := by
  unfold step
  simp only
  split <;> exact ⟨rfl, rfl⟩

/-- A `step` call on a state with the flag cleared. -/
theorem step_of_flag_false (T : Trig F) (s : Rocket F) (action : Int) (hflag : s.flag = false) :
    step T s action = (apply_action s action,
      [s.x, s.y, s.phi, s.u, s.v, s.w, s.theta, ((apply_action s action).ignition : F),
        ((apply_action s action).rotation : F), FINISH_PENALIZATION, 0]) := by
  obtain ⟨hx, hy, hphi, hu, hv, hw, hth, -, hf⟩ := apply_action_frame s action
  unfold step
  simp only [hf, hflag, hx, hy, hphi, hu, hv, hw, hth, flagValue]
  simp

theorem steps_frozen (T : Trig F) (acts : List Int) (q : Rocket F) (hflag : q.flag = false) :
    ∀ r ∈ steps T q acts,
      r.2.take 7 = [q.x, q.y, q.phi, q.u, q.v, q.w, q.theta] ∧
      r.2[9]? = some (-700 : F) ∧ r.2[10]? = some (0 : F) ∧ r.1.flag = false := by
  induction acts generalizing q with
  | nil => intro r hr; simp [steps] at hr
  | cons a acts ih =>
    intro r hr
    obtain ⟨hx, hy, hphi, hu, hv, hw, hth, -, hf⟩ := apply_action_frame q a
    have hstep := step_of_flag_false T q a hflag
    simp only [steps, List.mem_cons] at hr
    rcases hr with hr | hr
    · rw [hr, hstep]
      exact ⟨rfl, rfl, rfl, by rw [hf, hflag]⟩
    · have hq : (step T q a).1 = apply_action q a := by rw [hstep]
      have := ih (step T q a).1 (by rw [hq, hf, hflag]) r hr
      simp only [hq, hx, hy, hphi, hu, hv, hw, hth] at this
      exact this

/-- C10 (termination stickiness).  If `withinBounds` (the flag) is false, `step(action)`
returns `x, y, phi, u, v, w, theta` as they were, the reward `-700` and the flag value 0, and
leaves these seven fields, the time `t` and the flag unchanged in the simulator, for every
action id.  Hence, after any `step` call that returns the flag value 0, every later `step`
call (for any sequence of actions, with no `reset`) returns the same seven values, the
reward `-700` and the flag value 0. -/
theorem termination_sticky (T : Trig F) (s : Rocket F) (action : Int) :
    (s.flag = false →
      (step T s action).2.take 7 = [s.x, s.y, s.phi, s.u, s.v, s.w, s.theta] ∧
      (step T s action).2[9]? = some (-700 : F) ∧ (step T s action).2[10]? = some (0 : F) ∧
      (step T s action).2.length = 11 ∧
      (step T s action).1.x = s.x ∧ (step T s action).1.y = s.y ∧
      (step T s action).1.phi = s.phi ∧ (step T s action).1.u = s.u ∧
      (step T s action).1.v = s.v ∧ (step T s action).1.w = s.w ∧
      (step T s action).1.theta = s.theta ∧ (step T s action).1.t = s.t ∧
      (step T s action).1.flag = false) ∧
    ((step T s action).2[10]? = some (0 : F) →
      ∀ (acts : List Int), ∀ r ∈ steps T (step T s action).1 acts,
        r.2.take 7 = (step T s action).2.take 7 ∧ r.2[9]? = some (-700 : F) ∧
        r.2[10]? = some (0 : F)) := by
  constructor
  · intro hflag
    obtain ⟨hx, hy, hphi, hu, hv, hw, hth, ht, hf⟩ := apply_action_frame s action
    rw [step_of_flag_false T s action hflag]
    exact ⟨rfl, rfl, rfl, rfl, hx, hy, hphi, hu, hv, hw, hth, ht, by rw [hf, hflag]⟩
  · intro hret acts r hr
    obtain ⟨hout, h10⟩ := step_out T s action
    have hflag : (step T s action).1.flag = false := by
      rw [h10] at hret
      cases hfl : (step T s action).1.flag with
      | false => rfl
      | true =>
        rw [hfl] at hret
        simp [flagValue] at hret
    obtain ⟨h1, h2, h3, -⟩ := steps_frozen T acts (step T s action).1 hflag r hr
    exact ⟨by rw [h1, hout], h2, h3⟩

/-- Instance of `termination_sticky`: the out-of-bounds state `sample_out`, action 1, then
the actions 2, 0, 3. -/
theorem termination_sticky_witness :
    (step sample_trig sample_out 1).2.take 7 =
        [sample_out.x, sample_out.y, sample_out.phi, sample_out.u, sample_out.v, sample_out.w,
          sample_out.theta] ∧
      (step sample_trig sample_out 1).2[9]? = some (-700 : ℚ) ∧
      (step sample_trig sample_out 1).2[10]? = some (0 : ℚ) ∧
      ∀ r ∈ steps sample_trig (step sample_trig sample_out 1).1 [2, 0, 3],
        r.2.take 7 = (step sample_trig sample_out 1).2.take 7 ∧ r.2[9]? = some (-700 : ℚ) ∧
        r.2[10]? = some (0 : ℚ) :=
  ⟨((termination_sticky sample_trig sample_out 1).1 rfl).1,
    ((termination_sticky sample_trig sample_out 1).1 rfl).2.1,
    ((termination_sticky sample_trig sample_out 1).1 rfl).2.2.1,
    (termination_sticky sample_trig sample_out 1).2
      ((termination_sticky sample_trig sample_out 1).1 rfl).2.2.1 [2, 0, 3]⟩

/-! ## Rocket: the control state -/

theorem micro_step_control (T : Trig F) (s : Rocket F) :
    (micro_step T s).ignition = s.ignition ∧ (micro_step T s).rotation = s.rotation :=
  ⟨rfl, rfl⟩

theorem integrate_control (T : Trig F) (n : Nat) (s : Rocket F) :
    (integrate T n s).ignition = s.ignition ∧ (integrate T n s).rotation = s.rotation := by
  induction n generalizing s with
  | zero => exact ⟨rfl, rfl⟩
  | succ n ih =>
    unfold integrate
    split
    · exact ih (micro_step T s)
    · exact ⟨rfl, rfl⟩

/-- The control state after `step` is the one set by the action dispatch. -/
theorem step_control (T : Trig F) (s : Rocket F) (action : Int) :
    (step T s action).1.ignition = (apply_action s action).ignition ∧
      (step T s action).1.rotation = (apply_action s action).rotation := by
  unfold step
  simp only
  split
  · exact integrate_control T steps_actualization (apply_action s action)
  · exact ⟨rfl, rfl⟩

theorem apply_action_rotation {G : Type} (s : Rocket G) (action : Int) :
    (apply_action s action).rotation =
      if action = 2 then toggle s.rotation
      else if action = 3 then -toggle s.rotation else s.rotation := by
  unfold apply_action
  split_ifs <;> first | rfl | omega

theorem apply_action_ignition {G : Type} (s : Rocket G) (action : Int) :
    (apply_action s action).ignition =
      if action = 1 then toggle s.ignition else s.ignition := by
  unfold apply_action
  split_ifs <;> rfl

theorem toggle_values : toggle 0 = 1 ∧ toggle 1 = 0 ∧ toggle (-1) = 0 := by decide

/-- C11, refuted as stated.  With the nozzle rotating to the right (`rotation = 1`), two
`rotate-right` actions (id 2) leave `rotation = 1`, not neutral: the first stops the
rotation, the second starts it again; likewise two `rotate-left` actions (id 3) leave
`rotation = -1`. -/
theorem twice_right_not_neutral :
    sample_right.rotation = 1 ∧
      (apply_action (apply_action sample_right 2) 2).rotation = 1 ∧
      (apply_action (apply_action sample_right 2) 2).rotation ≠ 0 ∧
      (apply_action (apply_action sample_right 3) 3).rotation = -1 ∧
      (step sample_trig (step sample_trig sample_right 2).1 2).1.rotation ≠ 0 := by
  refine ⟨rfl, by decide, by decide, by decide, ?_⟩
  rw [(step_control _ _ _).2, apply_action_rotation, (step_control _ _ _).2,
    apply_action_rotation]
  decide

/-- C11, amended.  For every rotation state in `{-1, 0, 1}`: two `rotate-right` actions
(id 2) leave `rotation = 0` when the rotation was neutral and `rotation = 1` otherwise; two
`rotate-left` actions (id 3) leave `rotation = 0` when it was neutral and `rotation = -1`
otherwise.  The same holds for the control state after two `step` calls. -/
theorem rotation_twice (T : Trig F) (s : Rocket F)
    (hrot : s.rotation = -1 ∨ s.rotation = 0 ∨ s.rotation = 1) :
    (apply_action (apply_action s 2) 2).rotation = (if s.rotation = 0 then 0 else 1) ∧
      (apply_action (apply_action s 3) 3).rotation = (if s.rotation = 0 then 0 else -1) ∧
      (step T (step T s 2).1 2).1.rotation = (if s.rotation = 0 then 0 else 1) ∧
      (step T (step T s 3).1 3).1.rotation = (if s.rotation = 0 then 0 else -1) := by
  simp only [(step_control _ _ _).2, apply_action_rotation]
  rcases hrot with h | h | h <;> rw [h] <;> decide

/-- Instance of `rotation_twice`: the constructor state (rotation neutral). -/
theorem rotation_twice_witness :
    (apply_action (apply_action (zero : Rocket ℚ) 2) 2).rotation =
        (if (zero : Rocket ℚ).rotation = 0 then 0 else 1) ∧
      (apply_action (apply_action (zero : Rocket ℚ) 3) 3).rotation =
        (if (zero : Rocket ℚ).rotation = 0 then 0 else -1) ∧
      (step sample_trig (step sample_trig (zero : Rocket ℚ) 2).1 2).1.rotation =
        (if (zero : Rocket ℚ).rotation = 0 then 0 else 1) ∧
      (step sample_trig (step sample_trig (zero : Rocket ℚ) 3).1 3).1.rotation =
        (if (zero : Rocket ℚ).rotation = 0 then 0 else -1) :=
  rotation_twice sample_trig zero (Or.inr (Or.inl rfl))

theorem run_append (T : Trig F) (s : Rocket F) (xs ys : List Int) :
    run T s (xs ++ ys) = run T (run T s xs) ys := by
  induction xs generalizing s with
  | nil => rfl
  | cons x xs ih => simp only [List.cons_append, run]; exact ih _

theorem step_noop_control (T : Trig F) (s : Rocket F) (action : Int)
    (h1 : action ≠ 1) (h2 : action ≠ 2) (h3 : action ≠ 3) :
    (step T s action).1.ignition = s.ignition ∧ (step T s action).1.rotation = s.rotation := by
  rw [(step_control T s action).1, (step_control T s action).2, apply_action_ignition,
    apply_action_rotation, if_neg h1, if_neg h2, if_neg h3]
  exact ⟨rfl, rfl⟩

theorem run_noops_control (T : Trig F) (noops : List Int) (s : Rocket F)
    (h : ∀ a ∈ noops, a ≠ 1 ∧ a ≠ 2 ∧ a ≠ 3) :
    (run T s noops).ignition = s.ignition ∧ (run T s noops).rotation = s.rotation := by
  induction noops generalizing s with
  | nil => exact ⟨rfl, rfl⟩
  | cons a as ih =>
    obtain ⟨h1, h2, h3⟩ := h a (List.mem_cons_self _ _)
    obtain ⟨hi, hr⟩ := step_noop_control T s a h1 h2 h3
    obtain ⟨hi2, hr2⟩ := ih (step T s a).1 (fun b hb => h b (List.mem_cons_of_mem _ hb))
    simp only [run]
    exact ⟨by rw [hi2, hi], by rw [hr2, hr]⟩

/-- C12.  For every control state with `ignition` in `{0, 1}` and `rotation` in
`{-1, 0, 1}`: `step` with action 1 sets `ignition` to `1 - ignition` and leaves `rotation`;
two actions 1, with any number of no-op actions between them, restore `ignition`; `step` with
action 0, and with any action id other than 1, 2, 3 (negative and large ids included), leaves
`ignition` and `rotation`; and after `step` with any action id `ignition` is in `{0, 1}` and
`rotation` is in `{-1, 0, 1}`. -/
theorem ignition_and_noop (T : Trig F) (s : Rocket F)
    (hign : s.ignition = 0 ∨ s.ignition = 1)
    (hrot : s.rotation = -1 ∨ s.rotation = 0 ∨ s.rotation = 1) :
    ((step T s 1).1.ignition = 1 - s.ignition ∧ (step T s 1).1.rotation = s.rotation) ∧
    (∀ noops : List Int, (∀ a ∈ noops, a ≠ 1 ∧ a ≠ 2 ∧ a ≠ 3) →
      (run T s (1 :: noops ++ [1])).ignition = s.ignition ∧
      (run T s (1 :: noops ++ [1])).rotation = s.rotation) ∧
    ((step T s 0).1.ignition = s.ignition ∧ (step T s 0).1.rotation = s.rotation) ∧
    (∀ action : Int, action ≠ 1 → action ≠ 2 → action ≠ 3 →
      (step T s action).1.ignition = s.ignition ∧ (step T s action).1.rotation = s.rotation) ∧
    (∀ action : Int,
      ((step T s action).1.ignition = 0 ∨ (step T s action).1.ignition = 1) ∧
      ((step T s action).1.rotation = -1 ∨ (step T s action).1.rotation = 0 ∨
        (step T s action).1.rotation = 1)) := by
  have hone : (step T s 1).1.ignition = 1 - s.ignition ∧ (step T s 1).1.rotation = s.rotation := by
    rw [(step_control T s 1).1, (step_control T s 1).2, apply_action_ignition,
      apply_action_rotation]
    simp only [if_true, show ¬ ((1 : Int) = 2) by decide, show ¬ ((1 : Int) = 3) by decide,
      if_false, and_true]
    rcases hign with h | h <;> rw [h] <;> decide
  refine ⟨hone, ?_, step_noop_control T s 0 (by decide) (by decide) (by decide),
    fun a h1 h2 h3 => step_noop_control T s a h1 h2 h3, ?_⟩
  · intro noops hn
    have e : (1 : Int) :: noops ++ [1] = [1] ++ (noops ++ [1]) := rfl
    rw [e, run_append, run_append]
    obtain ⟨hi, hr⟩ := run_noops_control T noops (step T s 1).1 hn
    simp only [run]
    rw [(step_control T _ 1).1, (step_control T _ 1).2, apply_action_ignition,
      apply_action_rotation, hi, hr, hone.1, hone.2]
    simp only [if_true, show ¬ ((1 : Int) = 2) by decide, show ¬ ((1 : Int) = 3) by decide,
      if_false, and_true]
    rcases hign with h | h <;> rw [h] <;> decide
  · intro action
    rw [(step_control T s action).1, (step_control T s action).2, apply_action_ignition,
      apply_action_rotation]
    constructor
    · split_ifs
      · rcases hign with h | h <;> rw [h] <;> decide
      · exact hign
    · split_ifs
      · rcases hrot with h | h | h <;> rw [h] <;> decide
      · rcases hrot with h | h | h <;> rw [h] <;> decide
      · exact hrot

/-- Instance of `ignition_and_noop`: the constructor state, with the no-op actions
`0, 7, -4` between two actions 1. -/
theorem ignition_and_noop_witness :
    (step sample_trig (zero : Rocket ℚ) 1).1.ignition = 1 - (zero : Rocket ℚ).ignition ∧
      (run sample_trig (zero : Rocket ℚ) (1 :: [0, 7, -4] ++ [1])).ignition =
        (zero : Rocket ℚ).ignition ∧
      (step sample_trig (zero : Rocket ℚ) (-4)).1.rotation = (zero : Rocket ℚ).rotation :=
  ⟨(ignition_and_noop sample_trig zero (Or.inl rfl) (Or.inr (Or.inl rfl))).1.1,
    ((ignition_and_noop sample_trig zero (Or.inl rfl) (Or.inr (Or.inl rfl))).2.1 [0, 7, -4]
      (by decide)).1,
    ((ignition_and_noop sample_trig zero (Or.inl rfl) (Or.inr (Or.inl rfl))).2.2.2.1 (-4)
      (by decide) (by decide) (by decide)).2⟩

/-! ## Rocket: the state after reset -/

/-- C13 (reset bounds), over exact arithmetic.  For six draws in `[0, 1)` and a positive
value of `acos(-1)`, `reset()` gives `x` and `y` in `[-x_range/2, x_range/2] = [-3/4, 3/4]`,
`phi` in `[-phi_0/2, phi_0/2]`, `u` and `v` in `[-2, 2]`, `theta` in
`[-theta_max/8, theta_max/8]`, sets the flag, returns `x` and `y` as elements 0 and 1, and
the state passes `check`: `|phi| < phi_max`, `|x| < area`, `|y| < area`. -/
theorem reset_bounds (T : Trig F) (s : Rocket F) (r0 r1 r2 r3 r4 r5 : F) (hpi : 0 < T.pi)
    (h0 : 0 ≤ r0 ∧ r0 < 1) (h1 : 0 ≤ r1 ∧ r1 < 1) (h2 : 0 ≤ r2 ∧ r2 < 1)
    (h3 : 0 ≤ r3 ∧ r3 < 1) (h4 : 0 ≤ r4 ∧ r4 < 1) (h5 : 0 ≤ r5 ∧ r5 < 1) :
    (x_range / 2 = (3 / 4 : F) ∧ y_range / 2 = (3 / 4 : F)) ∧
    (-(x_range / 2) ≤ (reset T s r0 r1 r2 r3 r4 r5).1.x ∧
      (reset T s r0 r1 r2 r3 r4 r5).1.x ≤ x_range / 2) ∧
    (-(y_range / 2) ≤ (reset T s r0 r1 r2 r3 r4 r5).1.y ∧
      (reset T s r0 r1 r2 r3 r4 r5).1.y ≤ y_range / 2) ∧
    (-(phi_0 T / 2) ≤ (reset T s r0 r1 r2 r3 r4 r5).1.phi ∧
      (reset T s r0 r1 r2 r3 r4 r5).1.phi ≤ phi_0 T / 2) ∧
    (-v_0_x ≤ (reset T s r0 r1 r2 r3 r4 r5).1.u ∧
      (reset T s r0 r1 r2 r3 r4 r5).1.u ≤ v_0_x) ∧
    (-v_0_y ≤ (reset T s r0 r1 r2 r3 r4 r5).1.v ∧
      (reset T s r0 r1 r2 r3 r4 r5).1.v ≤ v_0_y) ∧
    (-(theta_max / 8) ≤ (reset T s r0 r1 r2 r3 r4 r5).1.theta ∧
      (reset T s r0 r1 r2 r3 r4 r5).1.theta ≤ theta_max / 8) ∧
    (reset T s r0 r1 r2 r3 r4 r5).1.flag = true ∧
    (reset T s r0 r1 r2 r3 r4 r5).2[0]? = some (reset T s r0 r1 r2 r3 r4 r5).1.x ∧
    (reset T s r0 r1 r2 r3 r4 r5).2[1]? = some (reset T s r0 r1 r2 r3 r4 r5).1.y ∧
    (|(reset T s r0 r1 r2 r3 r4 r5).1.phi| < phi_max T ∧
      |(reset T s r0 r1 r2 r3 r4 r5).1.x| < area ∧
      |(reset T s r0 r1 r2 r3 r4 r5).1.y| < area) ∧
    (check T (reset T s r0 r1 r2 r3 r4 r5).1).flag = true := by
  have hx : (reset T s r0 r1 r2 r3 r4 r5).1.x = r0 * (3 / 2) - 3 / 2 / 2 := rfl
  have hy : (reset T s r0 r1 r2 r3 r4 r5).1.y = r1 * (3 / 2) - 3 / 2 / 2 := rfl
  have hphi : (reset T s r0 r1 r2 r3 r4 r5).1.phi = r2 * (T.pi / 36) - T.pi / 36 / 2 := rfl
  have hu : (reset T s r0 r1 r2 r3 r4 r5).1.u = 2 * 2 * r3 - 2 := rfl
  have hv : (reset T s r0 r1 r2 r3 r4 r5).1.v = 2 * 2 * r4 - 2 := rfl
  have hth : (reset T s r0 r1 r2 r3 r4 r5).1.theta =
      ((523598776 / 1000000000 : F) * r5 - 523598776 / 1000000000 / 2) * (1 / 4) := rfl
  have hp1 : 0 ≤ r2 * T.pi := mul_nonneg h2.1 hpi.le
  have hp2 : r2 * T.pi ≤ 1 * T.pi := mul_le_mul_of_nonneg_right h2.2.le hpi.le
  have bx : |(reset T s r0 r1 r2 r3 r4 r5).1.x| < area := by
    rw [hx, abs_lt]; unfold area; constructor <;> linarith [h0.1, h0.2]
  have by1 : |(reset T s r0 r1 r2 r3 r4 r5).1.y| < area := by
    rw [hy, abs_lt]; unfold area; constructor <;> linarith [h1.1, h1.2]
  have bphi : |(reset T s r0 r1 r2 r3 r4 r5).1.phi| < phi_max T := by
    rw [hphi, abs_lt]; unfold phi_max; constructor <;> linarith
  refine ⟨⟨by unfold x_range; norm_num, by unfold y_range; norm_num⟩, ?_, ?_, ?_, ?_, ?_, ?_,
    rfl, rfl, rfl, ⟨bphi, bx, by1⟩, ?_⟩
  · rw [hx]; unfold x_range; constructor <;> linarith [h0.1, h0.2]
  · rw [hy]; unfold y_range; constructor <;> linarith [h1.1, h1.2]
  · rw [hphi]; unfold phi_0; constructor <;> linarith
  · rw [hu]; unfold v_0_x; constructor <;> linarith [h3.1, h3.2]
  · rw [hv]; unfold v_0_y; constructor <;> linarith [h4.1, h4.2]
  · rw [hth]; unfold theta_max; constructor <;> linarith [h5.1, h5.2]
  · unfold check
    simp only
    rw [if_neg]
    intro h
    rcases h with h | h | h
    · exact absurd bphi (not_lt.mpr h)
    · exact absurd bx (not_lt.mpr h)
    · exact absurd by1 (not_lt.mpr h)

/-- Instance of `reset_bounds`: the constructor state and the draws
`0, 1/2, 1/4, 3/4, 0, 1/3`. -/
theorem reset_bounds_witness :
    -(x_range / 2) ≤ (reset sample_trig zero 0 (1 / 2) (1 / 4) (3 / 4) 0 (1 / 3)).1.x ∧
      (reset sample_trig zero 0 (1 / 2) (1 / 4) (3 / 4) 0 (1 / 3)).1.x ≤ x_range / 2 ∧
      (check sample_trig (reset sample_trig zero 0 (1 / 2) (1 / 4) (3 / 4) 0 (1 / 3)).1).flag =
        true :=
  ⟨(reset_bounds sample_trig zero 0 (1 / 2) (1 / 4) (3 / 4) 0 (1 / 3)
      (by norm_num [sample_trig]) (by norm_num) (by norm_num) (by norm_num) (by norm_num)
      (by norm_num) (by norm_num)).2.1.1,
    (reset_bounds sample_trig zero 0 (1 / 2) (1 / 4) (3 / 4) 0 (1 / 3)
      (by norm_num [sample_trig]) (by norm_num) (by norm_num) (by norm_num) (by norm_num)
      (by norm_num) (by norm_num)).2.1.2,
    (reset_bounds sample_trig zero 0 (1 / 2) (1 / 4) (3 / 4) 0 (1 / 3)
      (by norm_num [sample_trig]) (by norm_num) (by norm_num) (by norm_num) (by norm_num)
      (by norm_num) (by norm_num)).2.2.2.2.2.2.2.2.2.2.2⟩

/-! ## Rocket: the integration loop -/

theorem integrate_of_flag_false (T : Trig F) (n : Nat) (s : Rocket F) (h : s.flag = false) :
    integrate T n s = s := by
  cases n with
  | zero => rfl
  | succ n => simp [integrate, h]

/-- A loop that ends with the flag set has executed all its micro-steps. -/
theorem integrate_eq_micro_steps (T : Trig F) (n : Nat) (s : Rocket F)
    (hend : (integrate T n s).flag = true) : integrate T n s = micro_steps T n s := by
  induction n generalizing s with
  | zero => rfl
  | succ n ih =>
    cases hs : s.flag with
    | false =>
      rw [integrate_of_flag_false T _ s hs, hs] at hend
      exact absurd hend (by decide)
    | true =>
      have e : integrate T (n + 1) s = integrate T n (micro_step T s) := by
        simp [integrate, hs]
      rw [e] at hend ⊢
      exact ih (micro_step T s) hend

theorem check_flag (T : Trig F) (q : Rocket F) :
    (check T q).flag = true ↔ |q.phi| < phi_max T ∧ |q.x| < area ∧ |q.y| < area := by
  simp [check, not_or, not_le]

/-- The flag after a micro-step is the result of the bounds test on the new position. -/
theorem micro_step_flag (T : Trig F) (q : Rocket F) :
    (micro_step T q).flag = true ↔
      |(micro_step T q).phi| < phi_max T ∧ |(micro_step T q).x| < area ∧
        |(micro_step T q).y| < area := by
  unfold micro_step
  exact check_flag T _

theorem micro_steps_succ (T : Trig F) (n : Nat) (s : Rocket F) :
    micro_steps T (n + 1) s = micro_step T (micro_steps T n s) := by
  induction n generalizing s with
  | zero => rfl
  | succ n ih =>
    show micro_steps T (n + 1) (micro_step T s) = _
    rw [ih (micro_step T s)]
    rfl

/-- A loop whose micro-steps all end within bounds executes all of them. -/
theorem integrate_of_bounds (T : Trig F) (n : Nat) (s : Rocket F) (hs : s.flag = true)
    (hb : ∀ k, k < n → (micro_steps T (k + 1) s).flag = true) :
    integrate T n s = micro_steps T n s ∧ (integrate T n s).flag = true := by
  induction n generalizing s with
  | zero => exact ⟨rfl, hs⟩
  | succ n ih =>
    have e : integrate T (n + 1) s = integrate T n (micro_step T s) := by
      simp [integrate, hs]
    rw [e]
    exact ih (micro_step T s) (hb 0 (Nat.succ_pos n))
      (fun k hk => hb (k + 1) (Nat.succ_lt_succ hk))

/-- One micro-step with the engine off. -/
theorem micro_step_free (T : Trig F) (s : Rocket F) (hign : s.ignition = 0) :
    (micro_step T s).x = s.x + s.u * h ∧
      (micro_step T s).y = s.y + s.v * h - g * h ^ 2 / 2 ∧
      (micro_step T s).phi = s.phi + s.w * h ∧
      (micro_step T s).u = s.u ∧
      (micro_step T s).v = s.v - g * h ∧
      (micro_step T s).w = s.w ∧
      (micro_step T s).t = s.t + h ∧
      (micro_step T s).ignition = 0 := by
  simp only [micro_step, check, differential_ecuations_step, hign, Int.cast_zero, mul_zero,
    neg_zero, zero_mul, zero_div, add_zero]
  refine ⟨?_, ?_, ?_, trivial, ?_, trivial, trivial, trivial⟩ <;> ring

/-- The state after `n` micro-steps with the engine off. -/
theorem micro_steps_free (T : Trig F) (n : Nat) (s : Rocket F) (hign : s.ignition = 0) :
    (micro_steps T n s).x = s.x + s.u * ((n : F) * h) ∧
      (micro_steps T n s).y = s.y + s.v * ((n : F) * h) - g * ((n : F) * h) ^ 2 / 2 ∧
      (micro_steps T n s).phi = s.phi + s.w * ((n : F) * h) ∧
      (micro_steps T n s).u = s.u ∧
      (micro_steps T n s).v = s.v - g * ((n : F) * h) ∧
      (micro_steps T n s).w = s.w ∧
      (micro_steps T n s).t = s.t + (n : F) * h := by
  induction n generalizing s with
  | zero => simp [micro_steps]
  | succ n ih =>
    obtain ⟨hx, hy, hp, hu, hv, hw, ht, hi⟩ := micro_step_free T s hign
    obtain ⟨ix, iy, ip, iu, iv, iw, it⟩ := ih (micro_step T s) hi
    simp only [micro_steps]
    rw [ix, iy, ip, iu, iv, iw, it, hx, hy, hp, hu, hv, hw, ht]
    push_cast
    refine ⟨?_, ?_, ?_, rfl, ?_, rfl, ?_⟩ <;> ring

/-- C15 (free fall), over exact arithmetic.  For a state with the flag set whose ignition is
0 after the action is applied, if the flag is still set after `step` (all 50 micro-steps ran
within bounds), then `v` has decreased by `g * (50 * h) = 0.4905`, `u` and `w` are
unchanged, `x` has increased by `u * 0.05`, `y` has changed by
`v * 0.05 - 9.81 * 0.05^2 / 2`, and `t` has advanced by `0.05`. -/
theorem free_fall (T : Trig F) (s : Rocket F) (action : Int) (hflag : s.flag = true)
    (hign : (apply_action s action).ignition = 0)
    (hdone : (step T s action).1.flag = true) :
    (step T s action).1 = micro_steps T 50 (apply_action s action) ∧
    (g : F) * (50 * h) = 4905 / 10000 ∧
    (step T s action).1.v = s.v - 4905 / 10000 ∧
    (step T s action).1.u = s.u ∧
    (step T s action).1.w = s.w ∧
    (step T s action).1.x = s.x + s.u * (5 / 100) ∧
    (step T s action).1.y = s.y + (s.v * (5 / 100) - 981 / 100 * (5 / 100) ^ 2 / 2) ∧
    (step T s action).1.t = s.t + 5 / 100 := by
  obtain ⟨fx, fy, -, fu, fv, fw, -, ft, ff⟩ := apply_action_frame s action
  have hstep : (step T s action).1 =
      integrate T steps_actualization (apply_action s action) := by
    unfold step
    simp only [ff, hflag, if_true]
  rw [hstep] at hdone ⊢
  rw [integrate_eq_micro_steps T _ _ hdone]
  obtain ⟨ix, iy, -, iu, iv, iw, it⟩ := micro_steps_free T 50 (apply_action s action) hign
  refine ⟨rfl, by unfold g h; norm_num, ?_, ?_, ?_, ?_, ?_, ?_⟩
  · show (micro_steps T 50 (apply_action s action)).v = _
    rw [iv, fv]; unfold g h; norm_num
  · show (micro_steps T 50 (apply_action s action)).u = _
    rw [iu, fu]
  · show (micro_steps T 50 (apply_action s action)).w = _
    rw [iw, fw]
  · show (micro_steps T 50 (apply_action s action)).x = _
    rw [ix, fx, fu]; unfold h; norm_num
  · show (micro_steps T 50 (apply_action s action)).y = _
    rw [iy, fy, fv]; unfold g h; norm_num; ring
  · show (micro_steps T 50 (apply_action s action)).t = _
    rw [it, ft]; unfold h; norm_num

/-- A `step` call with action 0 on the constructor state stays within bounds. -/
theorem step_zero_flag : (step sample_trig (zero : Rocket ℚ) 0).1.flag = true := by
  have hstep : (step sample_trig (zero : Rocket ℚ) 0).1 =
      integrate sample_trig steps_actualization zero := rfl
  rw [hstep]
  refine (integrate_of_bounds sample_trig steps_actualization zero rfl ?_).2
  intro k hk
  have hk50 : ((k + 1 : Nat) : ℚ) ≤ 50 := by
    have : k + 1 ≤ 50 := hk
    exact_mod_cast this
  have hk0 : (0 : ℚ) ≤ ((k + 1 : Nat) : ℚ) := Nat.cast_nonneg _
  obtain ⟨ix, iy, ip, -, -, -, -⟩ := micro_steps_free sample_trig (k + 1) (zero : Rocket ℚ) rfl
  rw [micro_steps_succ] at ix iy ip ⊢
  rw [micro_step_flag, ix, iy, ip]
  have hx0 : (zero : Rocket ℚ).x = 0 := rfl
  have hy0 : (zero : Rocket ℚ).y = 0 := rfl
  have hp0 : (zero : Rocket ℚ).phi = 0 := rfl
  have hu0 : (zero : Rocket ℚ).u = 0 := rfl
  have hv0 : (zero : Rocket ℚ).v = 0 := rfl
  have hw0 : (zero : Rocket ℚ).w = 0 := rfl
  rw [hx0, hy0, hp0, hu0, hv0, hw0]
  have hsq : (((k + 1 : Nat) : ℚ) * (1 / 1000)) ^ 2 ≤ 1 := by nlinarith
  have hsq0 : 0 ≤ (((k + 1 : Nat) : ℚ) * (1 / 1000)) ^ 2 := sq_nonneg _
  refine ⟨?_, ?_, ?_⟩
  · simp [phi_max, sample_trig]
  · simp [area]
  · rw [abs_lt]
    unfold area g h
    constructor <;> nlinarith

/-- Instance of `free_fall`: the constructor state and action 0. -/
theorem free_fall_witness :
    (step sample_trig (zero : Rocket ℚ) 0).1.v = (zero : Rocket ℚ).v - 4905 / 10000 ∧
      (step sample_trig (zero : Rocket ℚ) 0).1.u = (zero : Rocket ℚ).u ∧
      (step sample_trig (zero : Rocket ℚ) 0).1.y = (zero : Rocket ℚ).y +
        ((zero : Rocket ℚ).v * (5 / 100) - 981 / 100 * (5 / 100) ^ 2 / 2) :=
  ⟨(free_fall sample_trig zero 0 rfl rfl step_zero_flag).2.2.1,
    (free_fall sample_trig zero 0 rfl rfl step_zero_flag).2.2.2.1,
    (free_fall sample_trig zero 0 rfl rfl step_zero_flag).2.2.2.2.2.2.1⟩

/-! ## Rocket: the reward -/

/-- C14 (reward).  For every state with the flag set and every action id, the state after
`step` is the state after the integration loop, the returned elements 0, 1, 2 are its `x`,
`y`, `phi`, and: if the flag is still set, element 9 is
`30 * (1 + t) / (1 + (x^2 + y^2)^2) * |cos(phi)|` at the new `t`, `x`, `y`, `phi` and element
10 is 1; if the flag was cleared during the integration, element 9 is `-700` and element 10
is 0. -/
theorem step_reward (T : Trig F) (s : Rocket F) (action : Int) (hflag : s.flag = true) :
    (step T s action).1 = integrate T steps_actualization (apply_action s action) ∧
    (step T s action).2.length = 11 ∧
    (step T s action).2.take 3 =
      [(step T s action).1.x, (step T s action).1.y, (step T s action).1.phi] ∧
    ((step T s action).1.flag = true →
      (step T s action).2[9]? = some (30 * (1 + (step T s action).1.t) /
        (1 + ((step T s action).1.x ^ 2 + (step T s action).1.y ^ 2) ^ 2) *
        |T.cos (step T s action).1.phi|) ∧
      (step T s action).2[10]? = some (1 : F)) ∧
    ((step T s action).1.flag = false →
      (step T s action).2[9]? = some (-700 : F) ∧ (step T s action).2[10]? = some (0 : F)) := by
  have hf : (apply_action s action).flag = true := by
    rw [(apply_action_frame s action).2.2.2.2.2.2.2.2, hflag]
  have hstep : step T s action =
      (integrate T steps_actualization (apply_action s action),
        [(integrate T steps_actualization (apply_action s action)).x,
          (integrate T steps_actualization (apply_action s action)).y,
          (integrate T steps_actualization (apply_action s action)).phi,
          (integrate T steps_actualization (apply_action s action)).u,
          (integrate T steps_actualization (apply_action s action)).v,
          (integrate T steps_actualization (apply_action s action)).w,
          (integrate T steps_actualization (apply_action s action)).theta,
          ((integrate T steps_actualization (apply_action s action)).ignition : F),
          ((integrate T steps_actualization (apply_action s action)).rotation : F),
          if (integrate T steps_actualization (apply_action s action)).flag then
            0 + reward T (integrate T steps_actualization (apply_action s action))
          else FINISH_PENALIZATION,
          flagValue (integrate T steps_actualization (apply_action s action)).flag]) := by
    unfold step
    simp only [hf, if_true]
  rw [hstep]
  refine ⟨rfl, rfl, rfl, ?_, ?_⟩
  · intro h
    simp only at h
    simp only [h, if_true, flagValue, List.getElem?_cons_succ, List.getElem?_cons_zero,
      reward, zero_add, pow_two, and_self]
  · intro h
    simp only at h
    simp only [h, flagValue, List.getElem?_cons_succ, List.getElem?_cons_zero,
      FINISH_PENALIZATION]
    simp

/-- Instance of `step_reward`: the constructor state and action 0, a step that stays within
bounds. -/
theorem step_reward_witness :
    (step sample_trig (zero : Rocket ℚ) 0).2[9]? =
        some (30 * (1 + (step sample_trig (zero : Rocket ℚ) 0).1.t) /
          (1 + ((step sample_trig (zero : Rocket ℚ) 0).1.x ^ 2 +
            (step sample_trig (zero : Rocket ℚ) 0).1.y ^ 2) ^ 2) *
          |sample_trig.cos (step sample_trig (zero : Rocket ℚ) 0).1.phi|) ∧
      (step sample_trig (zero : Rocket ℚ) 0).2[10]? = some (1 : ℚ) :=
  (step_reward sample_trig zero 0 rfl).2.2.2.1 step_zero_flag

/-! ## Rocket: the nozzle angle -/

theorem micro_steps_clock (T : Trig F) (k : Nat) (s : Rocket F) :
    (micro_steps T k s).t = s.t + (k : F) * h ∧ (micro_steps T k s).rotation = s.rotation ∧
      (micro_steps T k s).ignition = s.ignition := by
  induction k generalizing s with
  | zero => simp [micro_steps]
  | succ k ih =>
    obtain ⟨ht, hr, hi⟩ := ih (micro_step T s)
    simp only [micro_steps]
    rw [ht, hr, hi]
    have e : (micro_step T s).t = s.t + h := rfl
    rw [e]
    push_cast
    exact ⟨by ring, rfl, rfl⟩

theorem clamp_theta_max_add : clamp ((theta_max : ℚ) + 1 * w_theta * h) = theta_max := by
  unfold clamp theta_max w_theta h
  norm_num [abs_of_pos]

/-- C19, refuted as stated.  Start a macro-step at `sample_trim` (`t = 0`, trim angle at
`theta_max`, rotation 1).  The first micro-step ends within bounds, so a second one runs;
it starts at `t = h` with trim angle `theta_max`.  The angle the derivative function uses
at the local time `t = h` is `theta_max`: the rotation term is zero again.  The formula of
the claim, with the time elapsed since the start of the macro-step, gives
`theta_max + 2h`, whether the trim angle is read at the start of the macro-step or of the
micro-step. -/
theorem rotor_restarts :
    sample_trim.t = 0 ∧ sample_trim.flag = true ∧
      (micro_step sample_trig sample_trim).flag = true ∧
      integrate sample_trig steps_actualization sample_trim =
        integrate sample_trig 49 (micro_step sample_trig sample_trim) ∧
      (micro_step sample_trig sample_trim).t = h ∧
      (micro_step sample_trig sample_trim).theta = theta_max ∧
      rotor (micro_step sample_trig sample_trim) (micro_step sample_trig sample_trim).t =
        theta_max ∧
      (micro_step sample_trig sample_trim).theta +
          ((micro_step sample_trig sample_trim).rotation : ℚ) * w_theta *
            ((micro_step sample_trig sample_trim).t - sample_trim.t) = theta_max + 2 * h ∧
      sample_trim.theta + (sample_trim.rotation : ℚ) * w_theta *
            ((micro_step sample_trig sample_trim).t - sample_trim.t) = theta_max + 2 * h ∧
      rotor (micro_step sample_trig sample_trim) (micro_step sample_trig sample_trim).t ≠
        (micro_step sample_trig sample_trim).theta +
          ((micro_step sample_trig sample_trim).rotation : ℚ) * w_theta *
            ((micro_step sample_trig sample_trim).t - sample_trim.t) := by
  have ht : (micro_step sample_trig sample_trim).t = h := by
    show (0 : ℚ) + h = h
    rw [zero_add]
  have hth : (micro_step sample_trig sample_trim).theta = theta_max := by
    show clamp ((theta_max : ℚ) + ((1 : Int) : ℚ) * w_theta * h) = theta_max
    rw [Int.cast_one]
    exact clamp_theta_max_add
  have hrot : ((micro_step sample_trig sample_trim).rotation : ℚ) = 1 := by
    show (((1 : Int)) : ℚ) = 1
    exact Int.cast_one
  have hrot0 : (sample_trim.rotation : ℚ) = 1 := hrot
  have ht0 : sample_trim.t = 0 := rfl
  have hth0 : sample_trim.theta = theta_max := rfl
  have hrotor : rotor (micro_step sample_trig sample_trim)
      (micro_step sample_trig sample_trim).t = theta_max := by
    unfold rotor
    rw [hth, sub_self, mul_zero, add_zero]
  have hflag : (micro_step sample_trig sample_trim).flag = true := by
    obtain ⟨hx, hy, hp, -, -, -, -, -⟩ := micro_step_free sample_trig sample_trim rfl
    rw [micro_step_flag, hx, hy, hp]
    have hx0 : sample_trim.x = 0 := rfl
    have hy0 : sample_trim.y = 0 := rfl
    have hp0 : sample_trim.phi = 0 := rfl
    have hu0 : sample_trim.u = 0 := rfl
    have hv0 : sample_trim.v = 0 := rfl
    have hw0 : sample_trim.w = 0 := rfl
    rw [hx0, hy0, hp0, hu0, hv0, hw0]
    unfold phi_max area g h
    norm_num [sample_trig, abs_lt]
  refine ⟨rfl, rfl, hflag, ?_, ht, hth, hrotor, ?_, ?_, ?_⟩
  · show integrate sample_trig (49 + 1) sample_trim = _
    simp [integrate, show sample_trim.flag = true from rfl]
  · rw [hth, hrot, ht, ht0, w_theta]; ring
  · rw [hth0, hrot0, ht, ht0, w_theta]; ring
  · rw [hrotor, hth, hrot, ht, ht0]
    unfold theta_max w_theta h
    norm_num

/-- C19, amended.  For every macro-step start state `s0` and every number `k` of micro-steps
already executed, the state `q` at the start of the next micro-step has `t = s0.t + k * h`,
and the angle the derivative function uses at local time `τ` is the current trim angle plus
`rotation * w_theta * (τ - q.t)`: the elapsed time is counted from the start of the current
micro-step (`t` advances by `h` in every micro-step), so the rotation term restarts at every
micro-step; it is 0, `rotation * w_theta * h / 2` and `rotation * w_theta * h` at the three
times of the Runge-Kutta stages. -/
theorem rotor_micro_step (T : Trig F) (s0 : Rocket F) (k : Nat) :
    (micro_steps T k s0).t = s0.t + (k : F) * h ∧
    (micro_step T (micro_steps T k s0)).t = (micro_steps T k s0).t + h ∧
    (∀ τ : F, rotor (micro_steps T k s0) τ =
      (micro_steps T k s0).theta + (s0.rotation : F) * w_theta * (τ - (s0.t + (k : F) * h))) ∧
    (∀ τ x y phi u v w : F,
      (differential_ecuations_step T (micro_steps T k s0) τ x y phi u v w).d3 =
        -(F_e * ((micro_steps T k s0).ignition : F)) *
          T.sin (phi + rotor (micro_steps T k s0) τ) / m ∧
      (differential_ecuations_step T (micro_steps T k s0) τ x y phi u v w).d4 =
        -g + F_e * ((micro_steps T k s0).ignition : F) *
          T.cos (phi + rotor (micro_steps T k s0) τ) / m ∧
      (differential_ecuations_step T (micro_steps T k s0) τ x y phi u v w).d5 =
        6 * (F_e * ((micro_steps T k s0).ignition : F)) * b *
          T.sin (rotor (micro_steps T k s0) τ) / (m * (a * a + b * b))) ∧
    rotor (micro_steps T k s0) (micro_steps T k s0).t = (micro_steps T k s0).theta ∧
    rotor (micro_steps T k s0) ((micro_steps T k s0).t + h * (1 / 2)) =
      (micro_steps T k s0).theta + (s0.rotation : F) * w_theta * h / 2 ∧
    rotor (micro_steps T k s0) ((micro_steps T k s0).t + h) =
      (micro_steps T k s0).theta + (s0.rotation : F) * w_theta * h := by
  obtain ⟨ht, hr, -⟩ := micro_steps_clock T k s0
  refine ⟨ht, rfl, ?_, fun τ x y phi u v w => ⟨rfl, rfl, rfl⟩, ?_, ?_, ?_⟩
  · intro τ
    unfold rotor
    rw [ht, hr]
  · unfold rotor; rw [hr]; ring
  · unfold rotor; rw [hr]; ring
  · unfold rotor; rw [hr]; ring

/-! ## Rocket: the trim angle -/

theorem theta_max_pos : (0 : F) < theta_max := by
  unfold theta_max
  norm_num

theorem clamp_abs_le (v : F) : |clamp v| ≤ theta_max := by
  unfold clamp
  split
  · next hge =>
    have hpos : (0 : F) < |v| := lt_of_lt_of_le theta_max_pos hge
    rw [abs_div, abs_mul, abs_abs, abs_of_pos theta_max_pos, mul_div_assoc,
      div_self (ne_of_gt hpos), mul_one]
  · next hlt => exact le_of_lt (not_le.mp hlt)

theorem clamp_of_ge (v : F) (hge : |v| ≥ theta_max) :
    clamp v = if 0 < v then theta_max else -theta_max := by
  have hpos : (0 : F) < |v| := lt_of_lt_of_le theta_max_pos hge
  unfold clamp
  rw [if_pos hge]
  split
  · next hv => rw [abs_of_pos hv, mul_div_assoc, div_self (ne_of_gt hv), mul_one]
  · next hv =>
    have hv0 : v < 0 := by
      rcases lt_trichotomy v 0 with h | h | h
      · exact h
      · rw [h, abs_zero] at hpos; exact absurd hpos (lt_irrefl _)
      · exact absurd h hv
    rw [abs_of_neg hv0, mul_div_assoc, div_neg, div_self (ne_of_lt hv0), mul_neg, mul_one]

theorem clamp_of_lt (v : F) (hlt : |v| < theta_max) : clamp v = v := by
  unfold clamp
  rw [if_neg (not_le.mpr hlt)]

theorem integrate_theta_bound (T : Trig F) (n : Nat) (s : Rocket F)
    (hs : |s.theta| ≤ theta_max) : |(integrate T n s).theta| ≤ theta_max := by
  induction n generalizing s with
  | zero => exact hs
  | succ n ih =>
    unfold integrate
    split
    · exact ih (micro_step T s) (clamp_abs_le _)
    · exact hs

theorem step_theta_bound (T : Trig F) (s : Rocket F) (action : Int)
    (hs : |s.theta| ≤ theta_max) :
    |(step T s action).1.theta| ≤ theta_max ∧
      (step T s action).2[6]? = some (step T s action).1.theta := by
  have hth : (apply_action s action).theta = s.theta :=
    (apply_action_frame s action).2.2.2.2.2.2.1
  unfold step
  simp only
  split
  · exact ⟨integrate_theta_bound T _ _ (by rw [hth]; exact hs), rfl⟩
  · exact ⟨by rw [hth]; exact hs, rfl⟩

theorem steps_theta_bound (T : Trig F) (acts : List Int) (s : Rocket F)
    (hs : |s.theta| ≤ theta_max) :
    ∀ r ∈ steps T s acts, |r.1.theta| ≤ theta_max ∧ r.2[6]? = some r.1.theta := by
  induction acts generalizing s with
  | nil => intro r hr; simp [steps] at hr
  | cons a acts ih =>
    intro r hr
    simp only [steps, List.mem_cons] at hr
    rcases hr with hr | hr
    · rw [hr]; exact step_theta_bound T s a hs
    · exact ih (step T s a).1 (step_theta_bound T s a hs).1 r hr

/-- C20 (trim-angle bound), over exact arithmetic.  A micro-step sets `theta` to
`clamp(theta + rotation * w_theta * h)`; `clamp` maps a value `v` with `|v| ≥ theta_max` to
`theta_max` with the sign of `v` and leaves any other value; so `|clamp v| ≤ theta_max`.
After `reset()` with a draw in `[0, 1)` for `theta`, and after every `step` of any sequence
of actions that follows, `|theta| ≤ theta_max = 0.523598776`, and `step` returns `theta` as
element 6. -/
theorem trim_bound (T : Trig F) (s : Rocket F) (r0 r1 r2 r3 r4 r5 : F) (acts : List Int)
    (h5 : 0 ≤ r5 ∧ r5 < 1) :
    (∀ q : Rocket F, (micro_step T q).theta = clamp (q.theta + (q.rotation : F) * w_theta * h)) ∧
    (∀ v : F, |v| ≥ theta_max → clamp v = if 0 < v then theta_max else -theta_max) ∧
    (∀ v : F, |v| < theta_max → clamp v = v) ∧
    (∀ v : F, |clamp v| ≤ theta_max) ∧
    (theta_max : F) = 523598776 / 1000000000 ∧
    |(reset T s r0 r1 r2 r3 r4 r5).1.theta| ≤ theta_max ∧
    ∀ r ∈ steps T (reset T s r0 r1 r2 r3 r4 r5).1 acts,
      |r.1.theta| ≤ theta_max ∧ r.2[6]? = some r.1.theta := by
  have hreset : |(reset T s r0 r1 r2 r3 r4 r5).1.theta| ≤ theta_max := by
    have hth : (reset T s r0 r1 r2 r3 r4 r5).1.theta =
        ((523598776 / 1000000000 : F) * r5 - 523598776 / 1000000000 / 2) * (1 / 4) := rfl
    rw [hth, abs_le]
    unfold theta_max
    constructor <;> linarith [h5.1, h5.2]
  exact ⟨fun q => rfl, clamp_of_ge, clamp_of_lt, clamp_abs_le, rfl, hreset,
    steps_theta_bound T acts _ hreset⟩

/-- Instance of `trim_bound`: reset of the constructor state with the draw `9/10` for
`theta`, then the actions 2, 1, 2, 3. -/
theorem trim_bound_witness :
    |(reset sample_trig zero 0 0 0 0 0 (9 / 10)).1.theta| ≤ theta_max ∧
      ∀ r ∈ steps sample_trig (reset sample_trig zero 0 0 0 0 0 (9 / 10)).1 [2, 1, 2, 3],
        |r.1.theta| ≤ theta_max ∧ r.2[6]? = some r.1.theta :=
  (trim_bound sample_trig zero 0 0 0 0 0 (9 / 10) [2, 1, 2, 3] (by norm_num)).2.2.2.2.2

/-! ## Rocket: early exit of the integration loop -/

/-- After at least one micro-step the flag records the bounds test on the current position. -/
theorem micro_steps_flag (T : Trig F) (k : Nat) (s : Rocket F) (hk : 1 ≤ k) :
    (micro_steps T k s).flag = false ↔ out_of_bounds T (micro_steps T k s) := by
  obtain ⟨k0, rfl⟩ : ∃ k0, k = k0 + 1 := ⟨k - 1, by omega⟩
  have h := micro_step_flag T (micro_steps T k0 s)
  rw [← micro_steps_succ] at h
  unfold out_of_bounds
  constructor
  · intro hf
    by_contra hout
    simp only [not_or, not_le] at hout
    rw [h.mpr hout] at hf
    exact absurd hf (by decide)
  · intro hout
    cases hfl : (micro_steps T (k0 + 1) s).flag with
    | false => rfl
    | true =>
      obtain ⟨h1, h2, h3⟩ := h.mp hfl
      rcases hout with ho | ho | ho
      · exact absurd h1 (not_lt.mpr ho)
      · exact absurd h2 (not_lt.mpr ho)
      · exact absurd h3 (not_lt.mpr ho)

/-- The loop stops after the first micro-step that clears the flag. -/
theorem integrate_first_exit (T : Trig F) (n j : Nat) (s : Rocket F) (hs : s.flag = true)
    (hj1 : 1 ≤ j) (hjn : j ≤ n)
    (hbefore : ∀ k, 1 ≤ k → k < j → (micro_steps T k s).flag = true)
    (hat : (micro_steps T j s).flag = false) :
    integrate T n s = micro_steps T j s := by
  induction n generalizing s j with
  | zero => omega
  | succ n ih =>
    have e : integrate T (n + 1) s = integrate T n (micro_step T s) := by
      simp [integrate, hs]
    rw [e]
    by_cases hj : j = 1
    · subst hj
      have h1 : micro_steps T 1 s = micro_step T s := rfl
      rw [h1] at hat ⊢
      exact integrate_of_flag_false T n _ hat
    · obtain ⟨j0, rfl⟩ : ∃ j0, j = j0 + 1 := ⟨j - 1, by omega⟩
      have hfirst : (micro_step T s).flag = true := hbefore 1 (le_refl 1) (by omega)
      exact ih j0 (micro_step T s) hfirst (by omega) (by omega)
        (fun k hk1 hkj => hbefore (k + 1) (by omega) (by omega)) hat

theorem step_integrate (T : Trig F) (s : Rocket F) (action : Int) (hflag : s.flag = true) :
    (step T s action).1 = integrate T steps_actualization (apply_action s action) := by
  have hf : (apply_action s action).flag = true := by
    rw [(apply_action_frame s action).2.2.2.2.2.2.2.2, hflag]
  unfold step
  simp only [hf, if_true]

/-- The first two micro-steps from `sample_edge`: `x` reaches 10 and then 10.001. -/
theorem sample_edge_steps :
    (micro_steps sample_trig 1 sample_edge).x = 10 ∧
      (micro_steps sample_trig 1 sample_edge).y = -(981 / 200000000) ∧
      (micro_steps sample_trig 1 sample_edge).phi = 0 ∧
      (micro_steps sample_trig 1 sample_edge).t = h ∧
      (micro_steps sample_trig 2 sample_edge).x = 10001 / 1000 ∧
      out_of_bounds sample_trig (micro_steps sample_trig 1 sample_edge) := by
  have hx0 : sample_edge.x = 9999 / 1000 := rfl
  have hy0 : sample_edge.y = 0 := rfl
  have hp0 : sample_edge.phi = 0 := rfl
  have hu0 : sample_edge.u = 1 := rfl
  have hv0 : sample_edge.v = 0 := rfl
  have hw0 : sample_edge.w = 0 := rfl
  have ht0 : sample_edge.t = 0 := rfl
  obtain ⟨x1, y1, p1, -, -, -, t1⟩ := micro_steps_free sample_trig 1 sample_edge rfl
  obtain ⟨x2, -, -, -, -, -, -⟩ := micro_steps_free sample_trig 2 sample_edge rfl
  rw [hx0, hu0] at x1 x2
  rw [hy0, hv0] at y1
  rw [hp0, hw0] at p1
  rw [ht0] at t1
  have hx1 : (micro_steps sample_trig 1 sample_edge).x = 10 := by
    rw [x1]; unfold h; norm_num
  refine ⟨hx1, ?_, ?_, ?_, ?_, ?_⟩
  · rw [y1]; unfold g h; norm_num
  · rw [p1]; norm_num
  · rw [t1]; norm_num
  · rw [x2]; unfold h; norm_num
  · right; left
    rw [hx1]; unfold area; norm_num

/-- C21, refuted as stated.  Take the state `sample_edge` (`x = 9.999`, `u = 1`, engine off,
flag set) and action 0.  After the first micro-step `x = 10`: no threshold is exceeded
(`|x| = area`, `|phi|` and `|y|` are below theirs), and the first micro-step after which one
is exceeded is the second (`x = 10.001`).  The code tests `>=`: `step` returns the state
after exactly one micro-step, with the flag cleared and the time advanced by `h`, not by
`2 * h`. -/
theorem exit_at_threshold :
    sample_edge.flag = true ∧
      |(micro_steps sample_trig 1 sample_edge).x| = area ∧
      ¬ (|(micro_steps sample_trig 1 sample_edge).phi| > phi_max sample_trig) ∧
      ¬ (|(micro_steps sample_trig 1 sample_edge).x| > area) ∧
      ¬ (|(micro_steps sample_trig 1 sample_edge).y| > area) ∧
      |(micro_steps sample_trig 2 sample_edge).x| > area ∧
      (step sample_trig sample_edge 0).1 = micro_steps sample_trig 1 sample_edge ∧
      (step sample_trig sample_edge 0).1.flag = false ∧
      (step sample_trig sample_edge 0).1.t = sample_edge.t + 1 * h ∧
      (step sample_trig sample_edge 0).1.t ≠ sample_edge.t + 2 * h := by
  obtain ⟨hx1, hy1, hp1, t1, hx2, hout⟩ := sample_edge_steps
  have ht0 : sample_edge.t = 0 := rfl
  have hfl : (micro_steps sample_trig 1 sample_edge).flag = false :=
    (micro_steps_flag sample_trig 1 sample_edge (le_refl 1)).mpr hout
  have hstep : (step sample_trig sample_edge 0).1 = micro_steps sample_trig 1 sample_edge := by
    rw [step_integrate sample_trig sample_edge 0 rfl]
    exact integrate_first_exit sample_trig steps_actualization 1 _ rfl (le_refl 1)
      (by decide) (fun k hk1 hk => absurd hk1 (by omega)) hfl
  refine ⟨rfl, ?_, ?_, ?_, ?_, ?_, hstep, ?_, ?_, ?_⟩
  · rw [hx1]; unfold area; norm_num
  · rw [hp1]; unfold phi_max; norm_num [sample_trig]
  · rw [hx1]; unfold area; norm_num
  · rw [hy1]; unfold area; norm_num [abs_of_pos]
  · rw [hx2]; unfold area; norm_num [abs_of_pos]
  · rw [hstep]; exact hfl
  · rw [hstep, t1, ht0]; norm_num
  · rw [hstep, t1, ht0]; unfold h; norm_num

/-- C21, amended.  In a `step` that starts with the flag set, the flag after every
micro-step is the result of the bounds test on the new position (`check` clears it when
`|phi|`, `|x|` or `|y|` reaches or exceeds its threshold `phi_max`, `area`, `area`).  If `j`
(`1 ≤ j ≤ 50`) is the first micro-step after which a threshold is reached or exceeded, no
further micro-step is executed: the new state is the state after exactly `j` micro-steps,
the flag is cleared, the returned physical values and flag value are those of that state,
and the time has advanced by `j * h`.  If no micro-step reaches a threshold, exactly 50
micro-steps run, the flag stays set and the time advances by `50 * h = 0.05`. -/
theorem early_exit (T : Trig F) (s : Rocket F) (action : Int) (hflag : s.flag = true) :
    (∀ q : Rocket F, (micro_step T q).flag = false ↔ out_of_bounds T (micro_step T q)) ∧
    (∀ j : Nat, 1 ≤ j → j ≤ 50 →
      (∀ k, 1 ≤ k → k < j → ¬ out_of_bounds T (micro_steps T k (apply_action s action))) →
      out_of_bounds T (micro_steps T j (apply_action s action)) →
      (step T s action).1 = micro_steps T j (apply_action s action) ∧
      (step T s action).1.flag = false ∧
      (step T s action).1.t = s.t + (j : F) * h ∧
      (step T s action).2.take 7 =
        [(micro_steps T j (apply_action s action)).x,
          (micro_steps T j (apply_action s action)).y,
          (micro_steps T j (apply_action s action)).phi,
          (micro_steps T j (apply_action s action)).u,
          (micro_steps T j (apply_action s action)).v,
          (micro_steps T j (apply_action s action)).w,
          (micro_steps T j (apply_action s action)).theta] ∧
      (step T s action).2[10]? = some (0 : F)) ∧
    ((∀ k, 1 ≤ k → k ≤ 50 → ¬ out_of_bounds T (micro_steps T k (apply_action s action))) →
      (step T s action).1 = micro_steps T 50 (apply_action s action) ∧
      (step T s action).1.flag = true ∧
      (step T s action).1.t = s.t + 50 * h ∧ (50 : F) * h = 5 / 100 ∧
      (step T s action).2[10]? = some (1 : F)) := by
  have hf : (apply_action s action).flag = true := by
    rw [(apply_action_frame s action).2.2.2.2.2.2.2.2, hflag]
  have ht : (apply_action s action).t = s.t := (apply_action_frame s action).2.2.2.2.2.2.2.1
  have hstep := step_integrate T s action hflag
  obtain ⟨hout7, hout10⟩ := step_out T s action
  have hflagTrue : ∀ k, 1 ≤ k →
      ¬ out_of_bounds T (micro_steps T k (apply_action s action)) →
      (micro_steps T k (apply_action s action)).flag = true := by
    intro k hk hno
    cases hfl : (micro_steps T k (apply_action s action)).flag with
    | true => rfl
    | false => exact absurd ((micro_steps_flag T k _ hk).mp hfl) hno
  refine ⟨fun q => micro_steps_flag T 1 q (le_refl 1), ?_, ?_⟩
  · intro j hj1 hj50 hbefore hat
    have hfl : (micro_steps T j (apply_action s action)).flag = false :=
      (micro_steps_flag T j _ hj1).mpr hat
    have heq : (step T s action).1 = micro_steps T j (apply_action s action) := by
      rw [hstep]
      exact integrate_first_exit T steps_actualization j _ hf hj1 hj50
        (fun k hk1 hkj => hflagTrue k hk1 (hbefore k hk1 hkj)) hfl
    rw [hout7, hout10, heq, hfl]
    refine ⟨rfl, rfl, ?_, rfl, ?_⟩
    · rw [(micro_steps_clock T j _).1, ht]
    · simp [flagValue]
  · intro hnone
    obtain ⟨heq0, hfl0⟩ := integrate_of_bounds T steps_actualization (apply_action s action) hf
      (fun k hk => hflagTrue (k + 1) (by omega) (hnone (k + 1) (by omega) hk))
    have heq : (step T s action).1 = micro_steps T 50 (apply_action s action) := by
      rw [hstep]; exact heq0
    have hfl : (step T s action).1.flag = true := by rw [hstep]; exact hfl0
    refine ⟨heq, hfl, ?_, by unfold h; norm_num, ?_⟩
    · rw [heq, (micro_steps_clock T 50 _).1, ht]; norm_num
    · rw [hout10, hfl]; simp [flagValue]

/-- Instance of `early_exit`: the state `sample_edge` and action 0, where the first
micro-step reaches the threshold of `x`. -/
theorem early_exit_witness :
    (step sample_trig sample_edge 0).1 = micro_steps sample_trig 1 (apply_action sample_edge 0) ∧
      (step sample_trig sample_edge 0).1.flag = false ∧
      (step sample_trig sample_edge 0).1.t = sample_edge.t + ((1 : Nat) : ℚ) * h :=
  ⟨((early_exit sample_trig sample_edge 0 rfl).2.1 1 (le_refl 1) (by decide)
      (fun k hk1 hk => absurd hk1 (by omega)) sample_edge_steps.2.2.2.2.2).1,
    ((early_exit sample_trig sample_edge 0 rfl).2.1 1 (le_refl 1) (by decide)
      (fun k hk1 hk => absurd hk1 (by omega)) sample_edge_steps.2.2.2.2.2).2.1,
    ((early_exit sample_trig sample_edge 0 rfl).2.1 1 (le_refl 1) (by decide)
      (fun k hk1 hk => absurd hk1 (by omega)) sample_edge_steps.2.2.2.2.2).2.2.1⟩

end Rocket

end Repo
